import Mathlib

/-!
Verification development for the `route` HTTP request multiplexer.

The Go sources are embedded shallowly: Go byte strings become `List Char`
(`Str`), Go maps become association lists, mutation becomes explicit state
passing, and the `lookup` loop of the radix trie becomes a step function
driven by a fuel-indexed loop (the fuel is chosen generously; the Go loop
performs at most one iteration per consumed input byte, per trie node
descended into, and per parameter/catch-all fallback, so a bound that is
quadratic in trie size plus input length dominates the iteration count).
-/

namespace Route

/-- Go byte strings are modelled as lists of characters (the repository only
ever compares and slices bytes, so `Char` stands in for `byte`). -/
abbrev Str := List Char

/-- The zero byte, which the Go code uses as the "no delimiter" sentinel for
parameter start/end delimiters. -/
def nul : Char := Char.ofNat 0

/-- Byte-wise comparison used by lexicographic string ordering
(Go `sort.Strings`). -/
def charLeb (a b : Char) : Bool := a.toNat ≤ b.toNat

/-- Lexicographic less-or-equal on strings, byte-wise, as `sort.Strings`
orders Go strings. -/
def lexLe : Str → Str → Bool
  | [], _ => true
  | _ :: _, [] => false
  | a :: as, b :: bs => if a = b then lexLe as bs else charLeb a b

/-- Insert a string into an already sorted list (helper for `sortStrs`). -/
def insSorted (s : Str) : List Str → List Str
  | [] => [s]
  | t :: ts => if lexLe s t then s :: t :: ts else t :: insSorted s ts

/-- Sort a list of strings lexicographically (models Go `sort.Strings`;
the sorted output of distinct keys does not depend on input order). -/
def sortStrs : List Str → List Str
  | [] => []
  | s :: ss => insSorted s (sortStrs ss)

/-- Go `strings.Split(s, ",")`: splits at every comma, keeping empty tokens;
the empty string yields one empty token. -/
def splitComma : Str → List Str
  | [] => [[]]
  | c :: rest =>
    if c = ',' then [] :: splitComma rest
    else
      match splitComma rest with
      | t :: ts => (c :: t) :: ts
      | [] => [[c]]

/-- Go `strings.Join(ss, ",")`. -/
def joinComma : List Str → Str
  | [] => []
  | [s] => s
  | s :: rest => s ++ ',' :: joinComma rest

/-- Go `strings.IndexByte`, returning the position of the first occurrence. -/
def idxOfChar (c : Char) : Str → Option Nat
  | [] => none
  | x :: xs => if x = c then some 0 else (idxOfChar c xs).map (· + 1)

/-- Decides whether `a` is a byte-wise prefix of `b`
(Go `b[:len(a)] == a` guarded by `len(b) >= len(a)`). -/
def isPfx : Str → Str → Bool
  | [], _ => true
  | _ :: _, [] => false
  | a :: as, b :: bs => a = b ∧ isPfx as bs

/-- Go `cpl`: length of the longest common byte prefix of two strings. -/
def cpl : Str → Str → Nat
  | a :: as, b :: bs => if a = b then cpl as bs + 1 else 0
  | _, _ => 0

/-- A registered handler is identified abstractly by a number; the routing
engine never inspects handlers, it only stores and returns them. -/
abbrev Handler := Nat

/-- The variants of Go `routeError` plus the ad-hoc `Missing method` error
produced by `nodeHandler.set`. -/
inductive RouteError where
  | unclosedParam : RouteError
  | paramConflict (neu old : Str) : RouteError
  | separatorConflict (neu old : Char) : RouteError
  | methodConflict (m : Str) : RouteError
  | missingMethod : RouteError
deriving DecidableEq, Repr

/-- Go `nodeHandler`: the per-node method table.  The Go map is modelled as
an association list with distinct keys (`set` rejects duplicates); `methods`
caches the sorted comma-joined list of concrete methods for `Allow`. -/
structure NodeHandler where
  isSet : Bool
  hm : List (Str × Handler)
  methods : Str
deriving DecidableEq, Repr

/-- The zero value of `nodeHandler`. -/
def NodeHandler.empty : NodeHandler := ⟨false, [], []⟩

/-- Association-list lookup, modelling Go map indexing `nh.hm[m]`. -/
def lookupHM : List (Str × Handler) → Str → Option Handler
  | [], _ => none
  | (k, v) :: rest, m => if k = m then some v else lookupHM rest m

/-- Insert the comma-separated method tokens one at a time, as the loop in
`nodeHandler.set` does, failing on an empty token or an already present
method. -/
def setTokens (hm : List (Str × Handler)) (h : Handler) :
    List Str → Except RouteError (List (Str × Handler))
  | [] => .ok hm
  | m :: ms =>
    if m = [] then .error .missingMethod
    else
      match lookupHM hm m with
      | some _ => .error (.methodConflict m)
      | none => setTokens (hm ++ [(m, h)]) h ms

/-- The sorted comma-joined list of concrete (non-wildcard) methods of a
method table, recomputed by `nodeHandler.set` after every registration. -/
def sortedAllow (hm : List (Str × Handler)) : Str :=
  joinComma (sortStrs ((hm.map Prod.fst).filter (fun k => k ≠ ['*'])))

/-- Go `nodeHandler.set`: registers `h` for every comma-separated token of
`method`, then refreshes the cached `methods` string. -/
def NodeHandler.set (nh : NodeHandler) (method : Str) (h : Handler) :
    Except RouteError NodeHandler :=
  match setTokens nh.hm h (splitComma method) with
  | .error e => .error e
  | .ok hm => .ok ⟨true, hm, sortedAllow hm⟩

/-- The observable outcome of `nodeHandler.ServeHTTP`: either a handler runs,
or the request is answered with 405 plus an `Allow` header, or (for an
`OPTIONS` request) with the `Allow` header alone and no 405 error body. -/
inductive Dispatch where
  | handled (h : Handler) : Dispatch
  | notAllowed (allow : Str) : Dispatch
  | optionsAllow (allow : Str) : Dispatch
deriving DecidableEq, Repr

/-- Go `nodeHandler.ServeHTTP`: exact-method lookup, then the wildcard entry,
then the 405/`Allow` path with the `OPTIONS` exemption. -/
def NodeHandler.serve (nh : NodeHandler) (method : Str) : Dispatch :=
  match lookupHM nh.hm method with
  | some h => .handled h
  | none =>
    match lookupHM nh.hm ['*'] with
    | some h => .handled h
    | none =>
      if method = "OPTIONS".data then .optionsAllow nh.methods
      else .notAllowed nh.methods

/-- Go `catchallNode`: a tail catch-all branch; always terminal. -/
structure CatchallNode where
  name : Str
  pattern : Str
  handler : NodeHandler
deriving DecidableEq, Repr

mutual
/-- Go `node`: a radix-trie node with an edge label, first-byte dispatch
index, static children, an optional parameter branch and an optional
catch-all branch. -/
inductive Node : Type where
  | mk (edge pattern : Str) (handler : NodeHandler) (maxParams : Nat)
       (indices : Str) (children : List Node)
       (param : Option ParamNode) (catchall : Option CatchallNode) : Node

/-- Go `paramNode`: a single-segment parameter branch with its start/end
delimiter bytes (`nul` when unset) and an optional continuation node. -/
inductive ParamNode : Type where
  | mk (start stop : Char) (name pattern : Str) (handler : NodeHandler)
       (child : Option Node) : ParamNode
end

def Node.edge : Node → Str
  | .mk e _ _ _ _ _ _ _ => e

def Node.pattern : Node → Str
  | .mk _ p _ _ _ _ _ _ => p

def Node.handler : Node → NodeHandler
  | .mk _ _ h _ _ _ _ _ => h

def Node.maxParams : Node → Nat
  | .mk _ _ _ m _ _ _ _ => m

def Node.indices : Node → Str
  | .mk _ _ _ _ i _ _ _ => i

def Node.children : Node → List Node
  | .mk _ _ _ _ _ c _ _ => c

def Node.param : Node → Option ParamNode
  | .mk _ _ _ _ _ _ p _ => p

def Node.catchall : Node → Option CatchallNode
  | .mk _ _ _ _ _ _ _ c => c

def ParamNode.start : ParamNode → Char
  | .mk s _ _ _ _ _ => s

def ParamNode.stop : ParamNode → Char
  | .mk _ e _ _ _ _ => e

def ParamNode.name : ParamNode → Str
  | .mk _ _ n _ _ _ => n

def ParamNode.pattern : ParamNode → Str
  | .mk _ _ _ p _ _ => p

def ParamNode.handler : ParamNode → NodeHandler
  | .mk _ _ _ _ h _ => h

def ParamNode.child : ParamNode → Option Node
  | .mk _ _ _ _ _ c => c

/-- The zero value `&node{}`. -/
def Node.empty : Node := .mk [] [] NodeHandler.empty 0 [] [] none none

/-- Go `countParams`: counts parameter tokens as a `uint8`, stopping (and
adding one) at the first catch-all marker; arithmetic wraps at 256. -/
def countParams : Str → Nat → Nat
  | [], n => n
  | c :: rest, n =>
    if c = '*' then (n + 1) % 256
    else if c = '{' then countParams rest ((n + 1) % 256)
    else countParams rest n

/-- First static child whose edge begins with byte `c`, with its position
(the `for i, n := range cn.children` scan in `node.insert`). -/
def findEdgeChild (cs : List Node) (c : Char) : Option (Nat × Node) :=
  match cs with
  | [] => none
  | n :: rest =>
    if n.edge.head? = some c then some (0, n)
    else (findEdgeChild rest c).map (fun p => (p.1 + 1, p.2))

theorem findEdgeChild_head {cs : List Node} {c : Char} {i : Nat} {n : Node}
    (hfc : findEdgeChild cs c = some (i, n)) : ∃ e, n.edge = c :: e := by
  induction cs generalizing i with
  | nil => simp [findEdgeChild] at hfc
  | cons x xs ih =>
    rw [findEdgeChild] at hfc
    by_cases he : x.edge.head? = some c
    · rw [if_pos he] at hfc
      simp only [Option.some.injEq, Prod.mk.injEq] at hfc
      obtain ⟨-, hxn⟩ := hfc
      rcases hx : x.edge with - | ⟨e0, erest⟩ <;> rw [hx] at he <;> simp at he
      exact ⟨erest, by rw [← hxn, hx, he]⟩
    · rw [if_neg he, Option.map_eq_some'] at hfc
      obtain ⟨⟨j, m⟩, hm, hpair⟩ := hfc
      simp only [Prod.mk.injEq] at hpair
      obtain ⟨-, rfl⟩ := hpair
      exact ih hm

/-- Position of the cut between the leading static run of a pattern suffix
and its next parameter or catch-all token (the `IndexByte` pair in the
static branch of `node.insert`). -/
def staticCut (pat : Str) : Nat :=
  match idxOfChar '{' pat with
  | some i => i
  | none =>
    match idxOfChar '*' pat with
    | some i => i
    | none => pat.length

theorem idxOfChar_cons_pos {c x : Char} {xs : Str} {i : Nat}
    (hne : x ≠ c) (hx : idxOfChar c (x :: xs) = some i) : 1 ≤ i := by
  rw [idxOfChar, if_neg hne] at hx
  simp only [Option.map_eq_some'] at hx
  obtain ⟨j, -, rfl⟩ := hx
  omega

theorem staticCut_pos {c : Char} {t : Str} (hb : c ≠ '{') (hs : c ≠ '*') :
    1 ≤ staticCut (c :: t) := by
  rw [staticCut]
  rcases h1 : idxOfChar '{' (c :: t) with - | i
  · rcases h2 : idxOfChar '*' (c :: t) with - | j
    · simp
    · exact idxOfChar_cons_pos hs h2
  · exact idxOfChar_cons_pos hb h1

/-- One parameter-delimiter reconciliation step of `node.insert`: the new
byte and the already registered byte must agree, an unset side adopts the
set side, and two differently set bytes conflict. -/
def reconcileDelim (neu old : Char) : Except (Char × Char) Char :=
  if neu ≠ old then
    if neu ≠ nul ∧ old ≠ nul then .error (neu, old)
    else if neu = nul then .ok old
    else .ok neu
  else .ok neu

/-- The loop body of Go `node.insert`, written as recursion on the remaining
pattern suffix `pat`; `full` is the complete pattern recorded at terminal
positions and `mp` the running `maxParams` hint.  Every loop iteration in
the Go code consumes at least one pattern byte, so the structural `fuel`
parameter (instantiated with the pattern length plus one by `Node.insert`)
never reaches zero on a reachable call. -/
def insertLoop (method full : Str) (h : Handler) :
    Nat → Node → Str → Nat → Except RouteError Node
  | 0, _, _, _ => .error .unclosedParam
  | fuel + 1, .mk edge pat0 hdl mp0 idx cs pm ca, pat, mp =>
    match pat with
    | [] =>
      match hdl.set method h with
      | .error e => .error e
      | .ok nh => .ok (.mk edge full nh mp0 idx cs pm ca)
    | c0 :: ptail =>
      let mp1 := if mp > mp0 then mp else mp0
      if c0 = '*' then
        -- catch-all branch
        match (ca.getD ⟨[], [], NodeHandler.empty⟩).handler.set method h with
        | .error e => .error e
        | .ok nh => .ok (.mk edge pat0 hdl mp1 idx cs pm (some ⟨ptail, full, nh⟩))
      else if c0 = '{' then
        -- parameter branch
        match idxOfChar '}' (c0 :: ptail) with
        | none => .error .unclosedParam
        | some i =>
          match pm.getD (.mk nul nul (((c0 :: ptail).take i).drop 1) [] NodeHandler.empty none) with
          | .mk pstart pstop pname ppat phdl pchild =>
            if pname ≠ [] ∧ pname ≠ ((c0 :: ptail).take i).drop 1 then
              .error (.paramConflict (((c0 :: ptail).take i).drop 1) pname)
            else
              match reconcileDelim ((edge.getLast?).getD nul) pstart with
              | .error (a, b) => .error (.separatorConflict a b)
              | .ok start1 =>
                match reconcileDelim ((((c0 :: ptail).drop (i + 1)).head?).getD nul) pstop with
                | .error (a, b) => .error (.separatorConflict a b)
                | .ok stop1 =>
                  if (c0 :: ptail).drop (i + 1) = [] then
                    match phdl.set method h with
                    | .error e => .error e
                    | .ok nh =>
                      .ok (.mk edge pat0 hdl mp1 idx cs
                            (some (.mk start1 stop1 (((c0 :: ptail).take i).drop 1) full nh
                              pchild)) ca)
                  else
                    match insertLoop method full h fuel (pchild.getD Node.empty)
                        ((c0 :: ptail).drop (i + 1)) ((mp + 255) % 256) with
                    | .error e => .error e
                    | .ok child1 =>
                      .ok (.mk edge pat0 hdl mp1 idx cs
                            (some (.mk start1 stop1 (((c0 :: ptail).take i).drop 1) ppat phdl
                              (some child1))) ca)
      else
        -- static edge
        match findEdgeChild cs c0 with
        | some (i, .mk ne npat nhdl nmp nidx ncs npm nca) =>
          let pl := cpl ne (c0 :: ptail)
          match insertLoop method full h fuel
              (if pl < ne.length then
                Node.mk (ne.take pl) [] NodeHandler.empty 0 [((ne.drop pl).headD nul)]
                  [Node.mk (ne.drop pl) npat nhdl nmp nidx ncs npm nca] none none
               else .mk ne npat nhdl nmp nidx ncs npm nca)
              ((c0 :: ptail).drop pl) mp with
          | .error e => .error e
          | .ok n2 => .ok (.mk edge pat0 hdl mp1 idx (cs.set i n2) pm ca)
        | none =>
          match insertLoop method full h fuel
              (Node.mk ((c0 :: ptail).take (staticCut (c0 :: ptail))) [] NodeHandler.empty mp
                [] [] none none)
              ((c0 :: ptail).drop (staticCut (c0 :: ptail))) mp with
          | .error e => .error e
          | .ok child1 =>
            .ok (.mk edge pat0 hdl mp1
                  (idx ++ [((c0 :: ptail).take (staticCut (c0 :: ptail))).headD nul])
                  (cs ++ [child1]) pm ca)

/-- Go `node.insert`. -/
def Node.insert (nd : Node) (method pattern : Str) (h : Handler) :
    Except RouteError Node :=
  insertLoop method pattern h (pattern.length + 1) nd pattern (countParams pattern 0)

/-- Go `Params`: the ordered list of `(name, value)` pairs captured during a
single lookup. -/
abbrev Params := List (Str × Str)

/-- Go `tsr`: the trailing-slash-redirect hint returned by `node.lookup`. -/
inductive Tsr where
  | none : Tsr
  | withSlash : Tsr
  | withoutSlash : Tsr
deriving DecidableEq, Repr

/-- The quadruple returned by Go `node.lookup`:
`(h Handler, ps Params, pat string, redir tsr)`. -/
structure LookupOut where
  h : Option NodeHandler
  ps : Params
  pat : Str
  redir : Tsr
deriving DecidableEq, Repr

/-- The all-empty lookup result `(nil, nil, "", tsrNone)`. -/
def noneOut : LookupOut := ⟨none, [], [], .none⟩

/-- The `for` scan inside Go `recommend`: does any child carry the
slash-extended edge with a set handler? -/
def recChild (path1 : Str) : List Node → Bool
  | [] => false
  | n :: rest => if n.edge = path1 ∧ n.handler.isSet then true else recChild path1 rest

/-- Go `recommend`: when the failed remaining input does not already end in
a separator, look for a child holding exactly the slash-extended remainder
with a handler, recommending an added-slash redirect. -/
def recommend (nd : Option Node) (path : Str) : LookupOut :=
  if path.getLast? ≠ some '/' then
    let path1 := path ++ ['/']
    match nd with
    | some n => if recChild path1 n.children then ⟨none, [], [], .withSlash⟩ else noneOut
    | none => noneOut
  else noneOut

/-- The first-byte index scan of the static-child section of `node.lookup`:
find the child at the first position whose `indices` byte equals `c`
(a failed edge comparison afterwards aborts the whole scan, exactly like
the `break` in the Go loop). -/
def idxChildScan : Str → List Node → Char → Option Node
  | i :: is, n :: ns, c => if c = i then some n else idxChildScan is ns c
  | _, _, _ => none

/-- The static-continuation attempt of one `node.lookup` iteration: index
dispatch on the first byte, then a full-edge prefix comparison, consuming
the edge on success. -/
def findStatic (nd : Node) (path : Str) : Option (Node × Str) :=
  match path with
  | [] => none
  | c :: _ =>
    match idxChildScan nd.indices nd.children c with
    | some n => if isPfx n.edge path then some (n, path.drop n.edge.length) else none
    | none => none

/-- Length of the parameter capture: bytes up to (excluding) the branch's
end delimiter or a path separator (the inner `for` of the parameter section
of `node.lookup`). -/
def captureLen (stop : Char) : Str → Nat
  | [] => 0
  | c :: rest => if c ≠ stop ∧ c ≠ '/' then captureLen stop rest + 1 else 0

/-- The loop state of Go `node.lookup`: current node and remaining input,
accumulated params, the `prev` pointer, and the remembered parameter /
catch-all fallback candidates together with the input remainder at which
each was observed (`pn`/`pp` and `cn`/`cp`). -/
structure LookupState where
  nd : Node
  path : Str
  ps : Params
  prev : Option Node
  pn : Option (Node × Str)
  cn : Option (Node × Str)

/-- Does `prev` exist and carry a set handler (the guard of the
`tsrWithoutSlash` return at the top of the loop)? -/
def prevSet : Option Node → Bool
  | some p => p.handler.isSet
  | none => false

/-- The `break Loop` epilogue of `node.lookup`: a lone separator left over a
node with a handler recommends dropping the slash, otherwise `recommend`. -/
def breakOut (nd : Node) (path : Str) : LookupOut :=
  if path = ['/'] ∧ nd.handler.isSet then ⟨none, [], [], .withoutSlash⟩
  else recommend (some nd) path

/-- The catch-all section of one `node.lookup` iteration (entered with the
effective remaining input `pathEff` for the no-candidate `break`). -/
def catchPhase (ps : Params) (nd : Node) (pathEff : Str)
    (cn : Option (Node × Str)) : LookupOut :=
  match cn with
  | some (cnode, cp) =>
    match cnode.catchall with
    | some ca =>
      if ca.handler.isSet then ⟨some ca.handler, ps ++ [(ca.name, cp)], ca.pattern, .none⟩
      else ⟨none, [], [], .none⟩
    | none => breakOut nd cp
  | none => breakOut nd pathEff

/-- One iteration of the Go `node.lookup` loop: terminal check, fallback
bookkeeping, static continuation, parameter fallback, catch-all fallback,
loop exit — in exactly that order. -/
def lookupStep (st : LookupState) : LookupOut ⊕ LookupState :=
  let nd := st.nd
  if st.path = [] ∨ st.path = nd.edge then
    if nd.handler.isSet then .inl ⟨some nd.handler, st.ps, nd.pattern, .none⟩
    else if nd.edge = ['/'] ∧ prevSet st.prev then .inl ⟨none, [], [], .withoutSlash⟩
    else .inl (recommend (some nd) st.path)
  else
    let pcn := if nd.catchall.isSome then ((none : Option (Node × Str)), some (nd, st.path))
               else (st.pn, st.cn)
    let pcn := if nd.param.isSome then (some (nd, st.path), (none : Option (Node × Str)))
               else pcn
    match findStatic nd st.path with
    | some (child, rest) => .inr ⟨child, rest, st.ps, some nd, pcn.1, pcn.2⟩
    | none =>
      match pcn.1 with
      | some (pnode, pp) =>
        match pnode.param with
        | some pr =>
          if (pnode.edge = [] ∧ pr.start = nul) ∨ pnode.edge.getLast? = some pr.start then
            let i := captureLen pr.stop pp
            let ps1 := st.ps ++ [(pr.name, pp.take i)]
            let path1 := pp.drop i
            if path1 = [] then
              if pr.handler.isSet then .inl ⟨some pr.handler, ps1, pr.pattern, .none⟩
              else .inl (recommend pr.child [])
            else
              match pr.child with
              | none =>
                if path1 = ['/'] ∧ pr.handler.isSet then .inl ⟨none, [], [], .withoutSlash⟩
                else .inl ⟨none, [], [], .none⟩
              | some child => .inr ⟨child, path1, ps1, some pnode, none, none⟩
          else .inl (catchPhase st.ps nd pp pcn.2)
        | none => .inl (catchPhase st.ps nd pp pcn.2)
      | none => .inl (catchPhase st.ps nd st.path pcn.2)

/-- Fuel-indexed driver of the `node.lookup` loop; with the generous fuel
supplied by `Node.lookup` the fuel never runs out on reachable states. -/
def lookupLoop : Nat → LookupState → LookupOut
  | 0, _ => noneOut
  | fuel + 1, st =>
    match lookupStep st with
    | .inl out => out
    | .inr st1 => lookupLoop fuel st1

mutual
/-- Number of trie nodes reachable from a node (used to size the lookup
fuel). -/
def nodeSize : Node → Nat
  | .mk _ _ _ _ _ cs p _ => 1 + nodesSize cs + paramSize p

def nodesSize : List Node → Nat
  | [] => 0
  | n :: ns => nodeSize n + nodesSize ns

def paramSize : Option ParamNode → Nat
  | none => 0
  | some (.mk _ _ _ _ _ c) => 1 + optSize c

def optSize : Option Node → Nat
  | none => 0
  | some n => nodeSize n
end

/-- Go `node.lookup`.  The Go loop executes at most one iteration per node
descended into and per fallback resumption, each fallback strictly deepening
the resumption point, so the quadratic fuel below strictly dominates the
iteration count and the driver returns exactly what the Go loop returns. -/
def Node.lookup (nd : Node) (path : Str) (po : Params) : LookupOut :=
  let _ := po
  lookupLoop ((nodeSize nd + 2) * (nodeSize nd + path.length + 2))
    ⟨nd, path, [], none, none, none⟩

/-- Go `Router`: the `hosts` flag and the trie root (the not-found handler
and pools live at the transport boundary and are modelled by the
`RouteOutcome.notFound` result). -/
structure Router where
  hosts : Bool
  root : Node

/-- Go `NewRouter`. -/
def Router.new : Router := ⟨false, Node.empty⟩

/-- The failure modes of `Router.Handle` (each Go `panic` becomes an
explicit error value). -/
inductive HandleError where
  | emptyPattern : HandleError
  | emptyMethod : HandleError
  | nilHandler : HandleError
  | routeErr (e : RouteError) : HandleError
deriving DecidableEq, Repr

/-- Go `Router.Handle`: argument validation, the host-awareness side effect,
then trie insertion. -/
def Router.handle (r : Router) (method pattern : Str) (h : Option Handler) :
    Except HandleError Router :=
  if pattern = [] then .error .emptyPattern
  else if method = [] then .error .emptyMethod
  else
    match h with
    | none => .error .nilHandler
    | some hv =>
      match r with
      | ⟨hosts0, root0⟩ =>
        match root0.insert method pattern hv with
        | .ok root1 => .ok ⟨if pattern.head? ≠ some '/' then true else hosts0, root1⟩
        | .error e => .error (.routeErr e)

/-- The observable result of Go `Router.handler`: a matched method table
with bindings and pattern, a 301 redirect to the given URL, or the
not-found handler. -/
inductive RouteOutcome where
  | found (nh : NodeHandler) (ps : Params) (pat : Str) : RouteOutcome
  | redirect (url : Str) : RouteOutcome
  | notFound : RouteOutcome
deriving DecidableEq, Repr

/-- Translation of one lookup result into the boundary outcome: the matched
method table, a 301 redirect to the slash-adjusted request path, or the
not-found handler. -/
def lookupOutcome (o : LookupOut) (path : Str) : RouteOutcome :=
  match o with
  | ⟨some nh, ps, pat, _⟩ => .found nh ps pat
  | ⟨none, _, _, .withSlash⟩ => .redirect (path ++ ['/'])
  | ⟨none, _, _, .withoutSlash⟩ => .redirect path.dropLast
  | ⟨none, _, _, .none⟩ => .notFound

/-- Go `Router.handler`: host-aware first walk over `host+path`, with a
path-only fallback exactly when that walk produced neither a handler nor a
trailing-slash hint, then translation into a redirect or not-found. -/
def Router.handlerFor (r : Router) (host path : Str) : RouteOutcome :=
  if r.hosts then
    match r.root.lookup (host ++ path) [] with
    | ⟨none, _, _, .none⟩ => lookupOutcome (r.root.lookup path []) path
    | o => lookupOutcome o path
  else lookupOutcome (r.root.lookup path []) path

/-- Register a list of `(method, pattern, handler)` triples in order,
failing if any registration fails. -/
def buildFrom (r : Router) : List (Str × Str × Handler) → Option Router
  | [] => some r
  | (m, p, h) :: rest =>
    match r.handle m p (some h) with
    | .ok r1 => buildFrom r1 rest
    | .error _ => none

/-- Build a router from scratch from a registration list. -/
def buildRouter (l : List (Str × Str × Handler)) : Option Router :=
  buildFrom Router.new l

/-- The two `strconv` error kinds that the typed accessors can surface. -/
inductive NumErr where
  | synErr : NumErr
  | rngErr : NumErr
deriving DecidableEq, Repr

/-- The error component of the typed `Params` accessors: Go `ErrNoParam`
or a `strconv.NumError` carrying the function name, the offending input
and the underlying kind. -/
inductive ParamErr where
  | noParam (key : Str) : ParamErr
  | numErr (fn num : Str) (kind : NumErr) : ParamErr
deriving DecidableEq, Repr

/-- Go `Params.get`: first entry with the given key. -/
def Params.get (ps : Params) (key : Str) : Option Str :=
  match ps with
  | [] => none
  | (k, v) :: rest => if k = key then some v else Params.get rest key

/-- Go `strconv.ParseBool`: the twelve literal spellings, anything else is
a syntax error with value `false`. -/
def parseBool (s : Str) : Bool × Option NumErr :=
  if s = "1".data ∨ s = "t".data ∨ s = "T".data ∨ s = "TRUE".data ∨
     s = "true".data ∨ s = "True".data then (true, none)
  else if s = "0".data ∨ s = "f".data ∨ s = "F".data ∨ s = "FALSE".data ∨
     s = "false".data ∨ s = "False".data then (false, none)
  else (false, some .synErr)

/-- The largest `uint64`. -/
def maxU64 : Nat := 18446744073709551615

/-- The digit-consuming loop of Go `strconv.ParseUint` for base 10 and
bit size 64: a non-digit is a syntax error with value 0; exceeding the
64-bit range stops with the saturated maximum and a range error. -/
def scanU64 (n : Nat) : Str → Nat × Option NumErr
  | [] => (n, none)
  | c :: rest =>
    if ¬('0' ≤ c ∧ c ≤ '9') then (0, some .synErr)
    else if n * 10 + (c.toNat - 48) > maxU64 then (maxU64, some .rngErr)
    else scanU64 (n * 10 + (c.toNat - 48)) rest

/-- Go `strconv.ParseUint(s, 10, 64)`. -/
def parseUint64 (s : Str) : Nat × Option NumErr :=
  if s = [] then (0, some .synErr) else scanU64 0 s

/-- The largest `int64` as an integer. -/
def maxI64 : Int := 9223372036854775807

/-- The smallest `int64` as an integer. -/
def minI64 : Int := -9223372036854775808

/-- The epilogue of Go `strconv.ParseInt`: reinterpret the unsigned parse
result under the sign, clamping to the signed 64-bit range with a range
error (a range error still carries the saturated boundary value). -/
def signedClamp (neg : Bool) (p : Nat × Option NumErr) : Int × Option NumErr :=
  match p.2 with
  | some .synErr => (0, some .synErr)
  | _ =>
    if ¬neg ∧ p.1 ≥ 9223372036854775808 then (maxI64, some .rngErr)
    else if neg ∧ p.1 > 9223372036854775808 then (minI64, some .rngErr)
    else (if neg then -(p.1 : Int) else (p.1 : Int), none)

/-- Go `strconv.ParseInt(s, 10, 64)`: sign handling around `ParseUint`,
then the signed clamp. -/
def parseInt64 (s : Str) : Int × Option NumErr :=
  if s = [] then (0, some .synErr)
  else if s.head? = some '+' then signedClamp false (parseUint64 s.tail)
  else if s.head? = some '-' then signedClamp true (parseUint64 s.tail)
  else signedClamp false (parseUint64 s)

/-- Go `Params.String`: the raw value, or `ErrNoParam`. -/
def Params.stringVal (ps : Params) (key : Str) : Str × Option ParamErr :=
  match ps.get key with
  | some v => (v, none)
  | none => ([], some (.noParam key))

/-- Go `Params.GetString`. -/
def Params.getString (ps : Params) (key : Str) : Str :=
  (ps.stringVal key).1

/-- Go `Params.Bool`. -/
def Params.boolVal (ps : Params) (key : Str) : Bool × Option ParamErr :=
  match ps.get key with
  | some v => ((parseBool v).1, ((parseBool v).2).map (fun k => .numErr "ParseBool".data v k))
  | none => (false, some (.noParam key))

/-- Go `Params.GetBool`. -/
def Params.getBool (ps : Params) (key : Str) : Bool :=
  (ps.boolVal key).1

/-- Go `Params.Int64` (and `Params.Int`, whose `int` is 64 bits wide on the
targeted platforms). -/
def Params.int64Val (ps : Params) (key : Str) : Int × Option ParamErr :=
  match ps.get key with
  | some v => ((parseInt64 v).1, ((parseInt64 v).2).map (fun k => .numErr "ParseInt".data v k))
  | none => (0, some (.noParam key))

/-- Go `Params.GetInt64`. -/
def Params.getInt64 (ps : Params) (key : Str) : Int :=
  (ps.int64Val key).1

/-- Go `Params.Int`. -/
def Params.intVal (ps : Params) (key : Str) : Int × Option ParamErr :=
  ps.int64Val key

/-- Go `Params.GetInt`. -/
def Params.getInt (ps : Params) (key : Str) : Int :=
  (ps.intVal key).1

/-- Go `Params.Uint64` (and `Params.Uint`). -/
def Params.uint64Val (ps : Params) (key : Str) : Nat × Option ParamErr :=
  match ps.get key with
  | some v => ((parseUint64 v).1, ((parseUint64 v).2).map (fun k => .numErr "ParseUint".data v k))
  | none => (0, some (.noParam key))

/-- Go `Params.GetUint64`. -/
def Params.getUint64 (ps : Params) (key : Str) : Nat :=
  (ps.uint64Val key).1

/-- Go `Params.Uint`. -/
def Params.uintVal (ps : Params) (key : Str) : Nat × Option ParamErr :=
  ps.uint64Val key

/-- Go `Params.GetUint`. -/
def Params.getUint (ps : Params) (key : Str) : Nat :=
  (ps.uintVal key).1

/-- Maximal capture of a single-segment parameter value: bytes up to the
next path separator or the delimiting byte that follows the parameter in
the pattern (spec, section 3: the end delimiter is the byte immediately
following the captured value, or none when the parameter runs to a
separator or the end of the input). -/
def specCapture (delim : Option Char) : Str → Nat
  | [] => 0
  | c :: rest =>
    if c = '/' ∨ some c = delim then 0
    else specCapture delim rest + 1

/-- Modelled from the spec: the pattern-matching relation of sections 3, 6
and 8 — a pattern is static runs, single-segment nonempty `[name]`
captures delimited by the following byte or a separator, and a trailing
nonempty catch-all capture; it yields the bindings in left-to-right token
order.  This is the specification-side definition that the lookup engine
is compared against. -/
def specMatchesF : Nat → Str → Str → Option Params
  | 0, _, _ => none
  | fuel + 1, pat, key =>
    match pat with
    | [] => if key = [] then some [] else none
    | c :: pr =>
      if c = '{' then
        match idxOfChar '}' pr with
        | none => none
        | some j =>
          if specCapture ((pr.drop (j + 1)).head?) key = 0 then none
          else
            (specMatchesF fuel (pr.drop (j + 1))
                (key.drop (specCapture ((pr.drop (j + 1)).head?) key))).map
              (fun bs => (pr.take j, key.take (specCapture ((pr.drop (j + 1)).head?) key)) :: bs)
      else if c = '*' then (if key = [] then none else some [(pr, key)])
      else
        match key with
        | [] => none
        | k :: kr => if c = k then specMatchesF fuel pr kr else none

/-- Entry point of the spec-side matcher: every token consumes at least one
pattern byte, so a fuel of the pattern length plus one always suffices. -/
def specMatches (pat key : Str) : Option Params :=
  specMatchesF (pat.length + 1) pat key

/-- Shorthand for embedding Lean string literals as byte strings. -/
def str (s : String) : Str := s.data

theorem scanU64_syn {s : Str} {n : Nat}
    (h : (scanU64 n s).2 = some .synErr) : (scanU64 n s).1 = 0 := by
  induction s generalizing n with
  | nil => simp [scanU64] at h
  | cons c rest ih =>
    rw [scanU64] at h ⊢
    by_cases hd : ¬('0' ≤ c ∧ c ≤ '9')
    · rw [if_pos hd]
    · rw [if_neg hd] at h ⊢
      by_cases hov : n * 10 + (c.toNat - 48) > maxU64
      · rw [if_pos hov] at h
        simp at h
      · rw [if_neg hov] at h ⊢
        exact ih h

theorem scanU64_rng {s : Str} {n : Nat}
    (h : (scanU64 n s).2 = some .rngErr) : (scanU64 n s).1 = maxU64 := by
  induction s generalizing n with
  | nil => simp [scanU64] at h
  | cons c rest ih =>
    rw [scanU64] at h ⊢
    by_cases hd : ¬('0' ≤ c ∧ c ≤ '9')
    · rw [if_pos hd] at h
      simp at h
    · rw [if_neg hd] at h ⊢
      by_cases hov : n * 10 + (c.toNat - 48) > maxU64
      · rw [if_pos hov]
      · rw [if_neg hov] at h ⊢
        exact ih h

theorem parseUint64_syn {s : Str}
    (h : (parseUint64 s).2 = some .synErr) : (parseUint64 s).1 = 0 := by
  rw [parseUint64] at h ⊢
  by_cases hs : s = []
  · rw [if_pos hs]
  · rw [if_neg hs] at h ⊢
    exact scanU64_syn h

theorem parseUint64_rng {s : Str}
    (h : (parseUint64 s).2 = some .rngErr) : (parseUint64 s).1 = maxU64 := by
  rw [parseUint64] at h ⊢
  by_cases hs : s = []
  · rw [if_pos hs] at h
    simp at h
  · rw [if_neg hs] at h ⊢
    exact scanU64_rng h

theorem signedClamp_syn {neg : Bool} {p : Nat × Option NumErr}
    (h : (signedClamp neg p).2 = some .synErr) : (signedClamp neg p).1 = 0 := by
  rw [signedClamp] at h ⊢
  split at h
  · rfl
  all_goals split at h
  any_goals simp_all
  all_goals split at h <;> simp_all

theorem signedClamp_rng {neg : Bool} {p : Nat × Option NumErr}
    (h : (signedClamp neg p).2 = some .rngErr) :
    (signedClamp neg p).1 = maxI64 ∨ (signedClamp neg p).1 = minI64 := by
  rw [signedClamp] at h ⊢
  split at h
  · simp at h
  all_goals split at h
  any_goals simp_all
  all_goals split at h <;> simp_all

theorem parseInt64_syn {s : Str}
    (h : (parseInt64 s).2 = some .synErr) : (parseInt64 s).1 = 0 := by
  rw [parseInt64] at h ⊢
  by_cases hs : s = []
  · rw [if_pos hs]
  · rw [if_neg hs] at h ⊢
    by_cases h1 : s.head? = some '+'
    · rw [if_pos h1] at h ⊢
      exact signedClamp_syn h
    · rw [if_neg h1] at h ⊢
      by_cases h2 : s.head? = some '-'
      · rw [if_pos h2] at h ⊢
        exact signedClamp_syn h
      · rw [if_neg h2] at h ⊢
        exact signedClamp_syn h

theorem parseInt64_rng {s : Str}
    (h : (parseInt64 s).2 = some .rngErr) :
    (parseInt64 s).1 = maxI64 ∨ (parseInt64 s).1 = minI64 := by
  rw [parseInt64] at h ⊢
  by_cases hs : s = []
  · rw [if_pos hs] at h
    simp at h
  · rw [if_neg hs] at h ⊢
    by_cases h1 : s.head? = some '+'
    · rw [if_pos h1] at h ⊢
      exact signedClamp_rng h
    · rw [if_neg h1] at h ⊢
      by_cases h2 : s.head? = some '-'
      · rw [if_pos h2] at h ⊢
        exact signedClamp_rng h
      · rw [if_neg h2] at h ⊢
        exact signedClamp_rng h

theorem parseBool_err {s : Str}
    (h : (parseBool s).2 ≠ none) : (parseBool s).1 = false := by
  rw [parseBool] at h ⊢
  split <;> [simp_all; skip]
  split <;> simp_all

theorem get_append_first (xs ys : Params) (k v : Str)
    (hx : ∀ p ∈ xs, p.1 ≠ k) :
    Params.get (xs ++ (k, v) :: ys) k = some v := by
  induction xs with
  | nil => simp [Params.get]
  | cons p rest ih =>
    obtain ⟨a, b⟩ := p
    rw [List.cons_append, Params.get, if_neg (hx (a, b) (List.mem_cons_self _ _))]
    exact ih fun q hq => hx q (List.mem_cons_of_mem _ hq)

/-- C10: when a `Params` value contains several entries with the same key,
`get` and every typed accessor read only the first (leftmost) such entry —
entries after it, duplicate or not, never influence the result. -/
theorem C10_duplicate_keys_first_wins (xs ys : Params) (k v : Str)
    (hx : ∀ p ∈ xs, p.1 ≠ k) :
    Params.get (xs ++ (k, v) :: ys) k = some v ∧
    Params.stringVal (xs ++ (k, v) :: ys) k = (v, none) ∧
    Params.getString (xs ++ (k, v) :: ys) k = v ∧
    Params.boolVal (xs ++ (k, v) :: ys) k = Params.boolVal [(k, v)] k ∧
    Params.int64Val (xs ++ (k, v) :: ys) k = Params.int64Val [(k, v)] k ∧
    Params.intVal (xs ++ (k, v) :: ys) k = Params.intVal [(k, v)] k ∧
    Params.uint64Val (xs ++ (k, v) :: ys) k = Params.uint64Val [(k, v)] k ∧
    Params.uintVal (xs ++ (k, v) :: ys) k = Params.uintVal [(k, v)] k := by
  have hg := get_append_first xs ys k v hx
  have hg1 : Params.get [(k, v)] k = some v := by simp [Params.get]
  refine ⟨hg, ?_, ?_, ?_, ?_, ?_, ?_, ?_⟩ <;>
    simp [Params.stringVal, Params.getString, Params.boolVal, Params.int64Val,
      Params.intVal, Params.uint64Val, Params.uintVal, hg, hg1]

theorem C10_duplicate_keys_first_wins_witness :
    Params.get ([(str "a", str "1")] ++ (str "k", str "7") :: [(str "k", str "9")]) (str "k")
      = some (str "7") :=
  (C10_duplicate_keys_first_wins [(str "a", str "1")] [(str "k", str "9")]
    (str "k") (str "7") (by decide)).1

/-- C9 fails on the code: on an out-of-range numeric input the accessor
returns a non-nil range error, yet the paired convenience method returns
the saturated boundary value, not the type's zero value. -/
theorem C9_counterexample :
    (Params.intVal [(str "k", str "9223372036854775808")] (str "k")).2 ≠ none ∧
    Params.getInt [(str "k", str "9223372036854775808")] (str "k") ≠ 0 := by
  decide

theorem boolVal_err (ps : Params) (k : Str)
    (h : (Params.boolVal ps k).2 ≠ none) : Params.getBool ps k = false := by
  rw [Params.getBool]
  rw [Params.boolVal] at h ⊢
  generalize hgen : ps.get k = o at h ⊢
  cases o with
  | none => rfl
  | some v => exact parseBool_err (by simpa using h)

theorem stringVal_err (ps : Params) (k : Str)
    (h : (Params.stringVal ps k).2 ≠ none) : Params.getString ps k = [] := by
  rw [Params.getString]
  rw [Params.stringVal] at h ⊢
  generalize hgen : ps.get k = o at h ⊢
  cases o with
  | none => rfl
  | some v => simp at h

theorem int64Val_noParam (ps : Params) (k : Str)
    (h : (Params.int64Val ps k).2 = some (ParamErr.noParam k)) :
    Params.getInt64 ps k = 0 := by
  rw [Params.getInt64]
  rw [Params.int64Val] at h ⊢
  generalize hgen : ps.get k = o at h ⊢
  cases o with
  | none => rfl
  | some v =>
    simp only [Option.map_eq_some'] at h
    obtain ⟨e0, -, hee⟩ := h
    simp at hee

theorem int64Val_syn (ps : Params) (k : Str) (fn num : Str)
    (h : (Params.int64Val ps k).2 = some (.numErr fn num .synErr)) :
    Params.getInt64 ps k = 0 := by
  rw [Params.getInt64]
  rw [Params.int64Val] at h ⊢
  generalize hgen : ps.get k = o at h ⊢
  cases o with
  | none => simp at h
  | some v =>
    simp only [Option.map_eq_some'] at h
    obtain ⟨e0, he0, hee⟩ := h
    simp only [ParamErr.numErr.injEq] at hee
    exact parseInt64_syn (hee.2.2 ▸ he0)

theorem int64Val_rng (ps : Params) (k : Str) (fn num : Str)
    (h : (Params.int64Val ps k).2 = some (.numErr fn num .rngErr)) :
    Params.getInt64 ps k = maxI64 ∨ Params.getInt64 ps k = minI64 := by
  rw [Params.getInt64]
  rw [Params.int64Val] at h ⊢
  generalize hgen : ps.get k = o at h ⊢
  cases o with
  | none => simp at h
  | some v =>
    simp only [Option.map_eq_some'] at h
    obtain ⟨e0, he0, hee⟩ := h
    simp only [ParamErr.numErr.injEq] at hee
    exact parseInt64_rng (hee.2.2 ▸ he0)

theorem uint64Val_noParam (ps : Params) (k : Str)
    (h : (Params.uint64Val ps k).2 = some (ParamErr.noParam k)) :
    Params.getUint64 ps k = 0 := by
  rw [Params.getUint64]
  rw [Params.uint64Val] at h ⊢
  generalize hgen : ps.get k = o at h ⊢
  cases o with
  | none => rfl
  | some v =>
    simp only [Option.map_eq_some'] at h
    obtain ⟨e0, -, hee⟩ := h
    simp at hee

theorem uint64Val_syn (ps : Params) (k : Str) (fn num : Str)
    (h : (Params.uint64Val ps k).2 = some (.numErr fn num .synErr)) :
    Params.getUint64 ps k = 0 := by
  rw [Params.getUint64]
  rw [Params.uint64Val] at h ⊢
  generalize hgen : ps.get k = o at h ⊢
  cases o with
  | none => simp at h
  | some v =>
    simp only [Option.map_eq_some'] at h
    obtain ⟨e0, he0, hee⟩ := h
    simp only [ParamErr.numErr.injEq] at hee
    exact parseUint64_syn (hee.2.2 ▸ he0)

theorem uint64Val_rng (ps : Params) (k : Str) (fn num : Str)
    (h : (Params.uint64Val ps k).2 = some (.numErr fn num .rngErr)) :
    Params.getUint64 ps k = maxU64 := by
  rw [Params.getUint64]
  rw [Params.uint64Val] at h ⊢
  generalize hgen : ps.get k = o at h ⊢
  cases o with
  | none => simp at h
  | some v =>
    simp only [Option.map_eq_some'] at h
    obtain ⟨e0, he0, hee⟩ := h
    simp only [ParamErr.numErr.injEq] at hee
    exact parseUint64_rng (hee.2.2 ▸ he0)

/-- C9 (amended): each convenience method returns exactly the value
component of the paired accessor; that component is the type's zero value
when the error is a missing key or a syntax error, but on a numeric range
error it is the saturated boundary value of the type. -/
theorem C9_convenience_is_value_component (ps : Params) (k : Str) :
    Params.getString ps k = (Params.stringVal ps k).1 ∧
    Params.getBool ps k = (Params.boolVal ps k).1 ∧
    Params.getInt ps k = (Params.intVal ps k).1 ∧
    Params.getInt64 ps k = (Params.int64Val ps k).1 ∧
    Params.getUint ps k = (Params.uintVal ps k).1 ∧
    Params.getUint64 ps k = (Params.uint64Val ps k).1 ∧
    ((Params.boolVal ps k).2 ≠ none → Params.getBool ps k = false) ∧
    ((Params.stringVal ps k).2 ≠ none → Params.getString ps k = []) ∧
    ((Params.int64Val ps k).2 = some (ParamErr.noParam k) → Params.getInt64 ps k = 0) ∧
    (∀ fn num, (Params.int64Val ps k).2 = some (.numErr fn num .synErr) →
      Params.getInt64 ps k = 0) ∧
    (∀ fn num, (Params.int64Val ps k).2 = some (.numErr fn num .rngErr) →
      Params.getInt64 ps k = maxI64 ∨ Params.getInt64 ps k = minI64) ∧
    ((Params.uint64Val ps k).2 = some (ParamErr.noParam k) → Params.getUint64 ps k = 0) ∧
    (∀ fn num, (Params.uint64Val ps k).2 = some (.numErr fn num .synErr) →
      Params.getUint64 ps k = 0) ∧
    (∀ fn num, (Params.uint64Val ps k).2 = some (.numErr fn num .rngErr) →
      Params.getUint64 ps k = maxU64) := by
  refine ⟨rfl, rfl, rfl, rfl, rfl, rfl, boolVal_err ps k, stringVal_err ps k,
    int64Val_noParam ps k, int64Val_syn ps k, int64Val_rng ps k,
    uint64Val_noParam ps k, uint64Val_syn ps k, uint64Val_rng ps k⟩

theorem C9_convenience_is_value_component_witness :
    Params.getInt64 [(str "k", str "9223372036854775808")] (str "k") = maxI64 ∨
    Params.getInt64 [(str "k", str "9223372036854775808")] (str "k") = minI64 :=
  (C9_convenience_is_value_component [(str "k", str "9223372036854775808")]
      (str "k")).2.2.2.2.2.2.2.2.2.2.1 (str "ParseInt") (str "9223372036854775808")
    (by decide)

theorem char_toNat_inj {a b : Char} (h : a.toNat = b.toNat) : a = b := by
  unfold Char.toNat at h
  exact Char.eq_of_val_eq (UInt32.toNat.inj h)

theorem lexLe_total (a b : Str) : lexLe a b = true ∨ lexLe b a = true := by
  induction a generalizing b with
  | nil => left; rfl
  | cons x xs ih =>
    cases b with
    | nil => right; rfl
    | cons y ys =>
      by_cases hxy : x = y
      · subst hxy
        rw [lexLe, lexLe, if_pos rfl, if_pos rfl]
        exact ih ys
      · rw [lexLe, lexLe, if_neg hxy, if_neg (Ne.symm hxy)]
        rcases Nat.le_total x.toNat y.toNat with hle | hle
        · left; simpa [charLeb] using hle
        · right; simpa [charLeb] using hle

theorem lexLe_trans {a b c : Str} (h1 : lexLe a b = true) (h2 : lexLe b c = true) :
    lexLe a c = true := by
  induction a generalizing b c with
  | nil => rfl
  | cons x xs ih =>
    cases b with
    | nil => simp [lexLe] at h1
    | cons y ys =>
      cases c with
      | nil => simp [lexLe] at h2
      | cons z zs =>
        rw [lexLe] at h1 h2 ⊢
        by_cases hxy : x = y
        · subst hxy
          rw [if_pos rfl] at h1
          by_cases hyz : x = z
          · subst hyz
            rw [if_pos rfl] at h2 ⊢
            exact ih h1 h2
          · rw [if_neg hyz] at h2 ⊢
            exact h2
        · rw [if_neg hxy] at h1
          by_cases hyz : y = z
          · subst hyz
            rw [if_neg hxy]
            exact h1
          · rw [if_neg hyz] at h2
            by_cases hxz : x = z
            · subst hxz
              simp only [charLeb, decide_eq_true_eq] at h1 h2
              exact absurd (char_toNat_inj (Nat.le_antisymm h1 h2)) hxy
            · rw [if_neg hxz]
              simp only [charLeb, decide_eq_true_eq] at h1 h2 ⊢
              omega

theorem insSorted_perm (s : Str) (l : List Str) : (insSorted s l).Perm (s :: l) := by
  induction l with
  | nil => exact List.Perm.refl _
  | cons t ts ih =>
    rw [insSorted]
    by_cases hle : lexLe s t = true
    · rw [if_pos hle]
    · rw [if_neg hle]
      exact (ih.cons t).trans (List.Perm.swap s t ts)

theorem insSorted_pairwise {s : Str} {l : List Str}
    (hl : List.Pairwise (fun a b => lexLe a b = true) l) :
    List.Pairwise (fun a b => lexLe a b = true) (insSorted s l) := by
  induction l with
  | nil => simp [insSorted]
  | cons t ts ih =>
    rw [insSorted]
    by_cases hle : lexLe s t = true
    · rw [if_pos hle]
      refine List.Pairwise.cons ?_ hl
      intro x hx
      rcases List.mem_cons.mp hx with rfl | hx
      · exact hle
      · exact lexLe_trans hle (List.rel_of_pairwise_cons hl hx)
    · rw [if_neg hle]
      refine List.Pairwise.cons ?_ (ih hl.tail)
      intro x hx
      rcases List.mem_cons.mp ((insSorted_perm s ts).mem_iff.mp hx) with rfl | hx
      · rcases lexLe_total x t with h | h
        · exact absurd h hle
        · exact h
      · exact List.rel_of_pairwise_cons hl hx

theorem sortStrs_perm (l : List Str) : (sortStrs l).Perm l := by
  induction l with
  | nil => exact List.Perm.refl _
  | cons s ss ih => exact (insSorted_perm s (sortStrs ss)).trans (ih.cons s)

theorem sortStrs_pairwise (l : List Str) :
    List.Pairwise (fun a b => lexLe a b = true) (sortStrs l) := by
  induction l with
  | nil => simp [sortStrs]
  | cons s ss ih => exact insSorted_pairwise ih

theorem setTokens_ok_append {hm : List (Str × Handler)} {h : Handler}
    {ts : List Str} {hm1 : List (Str × Handler)}
    (hok : setTokens hm h ts = .ok hm1) :
    hm1 = hm ++ ts.map (fun t => (t, h)) := by
  induction ts generalizing hm with
  | nil =>
    simp only [setTokens, Except.ok.injEq] at hok
    simp [hok]
  | cons m ms ih =>
    rw [setTokens] at hok
    split at hok
    · exact absurd hok (by simp)
    · split at hok
      · exact absurd hok (by simp)
      · rw [ih hok]
        simp

/-- C5: a matched node whose method table has no entry for the request's
method and no wildcard answers with 405 and an `Allow` header that lists
exactly the table's registered non-wildcard methods, sorted
lexicographically and comma-joined; an `OPTIONS` request gets the `Allow`
header without the 405 error body.  (The sortedness and completeness of
the cached `methods` string are stated explicitly.) -/
theorem C5_method_not_allowed (nh nh1 : NodeHandler) (m : Str) (h : Handler) (q : Str)
    (hset : nh.set m h = .ok nh1)
    (hq : lookupHM nh1.hm q = none) (hw : lookupHM nh1.hm ['*'] = none) :
    nh1.hm.map Prod.fst = nh.hm.map Prod.fst ++ splitComma m ∧
    nh1.methods = sortedAllow nh1.hm ∧
    List.Pairwise (fun a b => lexLe a b = true)
      (sortStrs ((nh1.hm.map Prod.fst).filter (fun k => k ≠ ['*']))) ∧
    (sortStrs ((nh1.hm.map Prod.fst).filter (fun k => k ≠ ['*']))).Perm
      ((nh1.hm.map Prod.fst).filter (fun k => k ≠ ['*'])) ∧
    nh1.serve q = (if q = "OPTIONS".data then Dispatch.optionsAllow nh1.methods
                   else Dispatch.notAllowed nh1.methods) := by
  rw [NodeHandler.set] at hset
  rcases hst : setTokens nh.hm h (splitComma m) with e | hm2 <;> rw [hst] at hset
  · exact absurd hset (by simp)
  · simp only [Except.ok.injEq] at hset
    subst hset
    refine ⟨?_, rfl, sortStrs_pairwise _, sortStrs_perm _, ?_⟩
    · rw [setTokens_ok_append hst]
      simp [Function.comp_def]
    · rw [NodeHandler.serve, hq, hw]

theorem C5_method_not_allowed_witness :
    NodeHandler.serve ⟨true, [(str "GET", 5), (str "POST", 5)], str "GET,POST"⟩ (str "PUT")
      = Dispatch.notAllowed (str "GET,POST") := by
  have hx := C5_method_not_allowed NodeHandler.empty
    ⟨true, [(str "GET", 5), (str "POST", 5)], str "GET,POST"⟩ (str "GET,POST") 5 (str "PUT")
    (by rfl) (by decide) (by decide)
  simpa using hx.2.2.2.2

theorem lookupStep_inr_cn {st st1 : LookupState}
    (hp : st.nd.param.isSome = true) (h : lookupStep st = .inr st1) : st1.cn = none := by
  rw [lookupStep] at h
  by_cases ht : st.path = [] ∨ st.path = st.nd.edge
  · rw [if_pos ht] at h
    split at h <;> [simp at h; skip]
    split at h <;> simp at h
  · rw [if_neg ht] at h
    simp only [hp, if_true] at h
    rcases hfs : findStatic st.nd st.path with - | ⟨child, rest⟩ <;> rw [hfs] at h <;>
      dsimp only at h
    · rcases hpr : st.nd.param with - | pr
      · rw [hpr] at hp
        simp at hp
      · rw [hpr] at h
        dsimp only at h
        by_cases hd : (st.nd.edge = [] ∧ pr.start = nul) ∨ st.nd.edge.getLast? = some pr.start
        · rw [if_pos hd] at h
          by_cases h1 : st.path.drop (captureLen pr.stop st.path) = []
          · rw [if_pos h1] at h
            split at h <;> simp at h
          · rw [if_neg h1] at h
            rcases hch : pr.child with - | child <;> rw [hch] at h <;> dsimp only at h
            · split at h <;> simp at h
            · simp only [Sum.inr.injEq] at h
              subst h
              rfl
        · rw [if_neg hd] at h
          simp at h
    · simp only [Sum.inr.injEq] at h
      subst h
      rfl

theorem lookupStep_param_delim_fail {st : LookupState} {pr : ParamNode}
    (hpr : st.nd.param = some pr)
    (ht : ¬(st.path = [] ∨ st.path = st.nd.edge))
    (hfs : findStatic st.nd st.path = none)
    (hd : ¬((st.nd.edge = [] ∧ pr.start = nul) ∨ st.nd.edge.getLast? = some pr.start)) :
    lookupStep st = .inl (breakOut st.nd st.path) := by
  rw [lookupStep, if_neg ht]
  simp only [hpr, Option.isSome_some, if_true, hfs]
  rw [if_neg hd]
  rfl

theorem lookupStep_catchall_whole_rest {st : LookupState} {ca : CatchallNode}
    (hc : st.nd.catchall = some ca) (hp : st.nd.param = none)
    (ht : ¬(st.path = [] ∨ st.path = st.nd.edge))
    (hfs : findStatic st.nd st.path = none)
    (hset : ca.handler.isSet = true) :
    lookupStep st = .inl ⟨some ca.handler, st.ps ++ [(ca.name, st.path)], ca.pattern, .none⟩ := by
  rw [lookupStep, if_neg ht]
  simp only [hc, hp, Option.isSome_some, Option.isSome_none, if_true, if_false,
    Bool.false_eq_true, hfs]
  rw [catchPhase]
  simp only [hc, hset, if_true]

theorem lookupStep_static_first {st : LookupState} {child : Node} {rest : Str}
    (ht : ¬(st.path = [] ∨ st.path = st.nd.edge))
    (hfs : findStatic st.nd st.path = some (child, rest)) :
    lookupStep st = .inr ⟨child, rest, st.ps, some st.nd,
      (if st.nd.param.isSome then some (st.nd, st.path)
       else if st.nd.catchall.isSome then none else st.pn),
      (if st.nd.param.isSome then none
       else if st.nd.catchall.isSome then some (st.nd, st.path) else st.cn)⟩ := by
  rw [lookupStep, if_neg ht]
  by_cases hcs : st.nd.catchall.isSome = true <;>
    by_cases hps : st.nd.param.isSome = true <;>
      simp only [hcs, hps, if_true, if_false, hfs, Bool.false_eq_true]

theorem lookupStep_param_resume {st : LookupState} {pnode : Node} {pp : Str} {pr : ParamNode}
    (hpn : st.pn = some (pnode, pp))
    (hp : st.nd.param = none) (hc : st.nd.catchall = none)
    (ht : ¬(st.path = [] ∨ st.path = st.nd.edge))
    (hfs : findStatic st.nd st.path = none)
    (hpr : pnode.param = some pr)
    (hd : (pnode.edge = [] ∧ pr.start = nul) ∨ pnode.edge.getLast? = some pr.start) :
    lookupStep st =
      (if pp.drop (captureLen pr.stop pp) = [] then
        (if pr.handler.isSet then
          .inl ⟨some pr.handler, st.ps ++ [(pr.name, pp.take (captureLen pr.stop pp))],
                pr.pattern, .none⟩
         else .inl (recommend pr.child []))
       else
        match pr.child with
        | none =>
          if pp.drop (captureLen pr.stop pp) = ['/'] ∧ pr.handler.isSet then
            .inl ⟨none, [], [], .withoutSlash⟩
          else .inl ⟨none, [], [], .none⟩
        | some child =>
          .inr ⟨child, pp.drop (captureLen pr.stop pp),
                st.ps ++ [(pr.name, pp.take (captureLen pr.stop pp))], some pnode, none, none⟩) := by
  rw [lookupStep, if_neg ht]
  simp only [hp, hc, Option.isSome_none, if_false, Bool.false_eq_true, hfs, hpn, hpr]
  rw [if_pos hd]

/-- Helper used by the concrete claim instances: the method table carrying
exactly one handler registered for GET. -/
def getOnly (h : Handler) : NodeHandler := ⟨true, [(str "GET", h)], str "GET"⟩

/-- The eight-pattern registration set of the repository's parameter tests. -/
def paramRouter : Option Router := buildRouter
  [(str "GET", str "/foo/bar/baz", 1), (str "GET", str "/foo/{b}/baz", 2),
   (str "GET", str "/foo/bar/{c}", 3), (str "GET", str "/foo/{b}/{c}", 4),
   (str "GET", str "/{a}/{b}/{c}", 5), (str "GET", str "/{a}/{b}/baz", 6),
   (str "GET", str "/{a}/bar/baz", 7), (str "GET", str "/{a}/bar/{c}", 8)]

/-- C7: at a node carrying both a parameter branch and a catch-all branch,
only the parameter branch is attempted once static continuation fails: any
continued state has no remembered catch-all candidate, a failed parameter
delimiter check exits through the plain loop epilogue without touching the
catch-all, and concretely a request under `/goo/` that neither
`/goo/[b]` nor any static child can complete yields 404 even though
`/goo/*abc` is registered. -/
theorem C7_param_shadows_catchall :
    (∀ st st1 : LookupState, st.nd.param.isSome = true →
       lookupStep st = .inr st1 → st1.cn = none) ∧
    (∀ (st : LookupState) (pr : ParamNode), st.nd.param = some pr →
       ¬(st.path = [] ∨ st.path = st.nd.edge) →
       findStatic st.nd st.path = none →
       ¬((st.nd.edge = [] ∧ pr.start = nul) ∨ st.nd.edge.getLast? = some pr.start) →
       lookupStep st = .inl (breakOut st.nd st.path)) ∧
    (buildRouter [(str "GET", str "/goo/{b}", 6), (str "GET", str "/goo/*abc", 7)]).map
        (fun r => r.handlerFor [] (str "/goo/x/y/z")) = some RouteOutcome.notFound :=
  ⟨fun _ _ hp h => lookupStep_inr_cn hp h,
   fun _ _ hpr ht hfs hd => lookupStep_param_delim_fail hpr ht hfs hd,
   by decide⟩

theorem C7_param_shadows_catchall_witness :
    (buildRouter [(str "GET", str "/goo/{b}", 6), (str "GET", str "/goo/*abc", 7)]).map
        (fun r => r.handlerFor [] (str "/goo/x/y/z")) = some RouteOutcome.notFound :=
  C7_param_shadows_catchall.2.2

/-- C8: when lookup falls back to a catch-all branch the whole remaining
input at the position where the branch was observed, separators included,
becomes the parameter's value; concretely `/foo/*abc` against
`/foo/x/y/z` binds `abc` to `x/y/z`. -/
theorem C8_catchall_greedy :
    (∀ (st : LookupState) (ca : CatchallNode),
       st.nd.catchall = some ca → st.nd.param = none →
       ¬(st.path = [] ∨ st.path = st.nd.edge) →
       findStatic st.nd st.path = none →
       ca.handler.isSet = true →
       lookupStep st =
         .inl ⟨some ca.handler, st.ps ++ [(ca.name, st.path)], ca.pattern, .none⟩) ∧
    (buildRouter [(str "GET", str "/foo/*abc", 9)]).map
        (fun r => r.handlerFor [] (str "/foo/x/y/z")) =
      some (RouteOutcome.found (getOnly 9) [(str "abc", str "x/y/z")] (str "/foo/*abc")) :=
  ⟨fun _ _ hc hp ht hfs hset => lookupStep_catchall_whole_rest hc hp ht hfs hset,
   by decide⟩

theorem C8_catchall_greedy_witness :
    (buildRouter [(str "GET", str "/foo/*abc", 9)]).map
        (fun r => r.handlerFor [] (str "/foo/x/y/z")) =
      some (RouteOutcome.found (getOnly 9) [(str "abc", str "x/y/z")] (str "/foo/*abc")) :=
  C8_catchall_greedy.2

/-- C2: a matching static edge is always taken before the parameter branch
(the step descends without touching the parameter and without appending a
binding, merely remembering the branch together with the input position at
which it was seen), and when no static edge matches, the step resumes from
the remembered branch at exactly that remembered position; concretely, with
`/[a]/bar/baz` and `/[a]/bar/[c]` registered, `/x/bar/b` binds a=x, c=b via
the parameter branch after the static `baz` edge fails. -/
theorem C2_static_wins_param_resumes :
    (∀ (st : LookupState) (child : Node) (rest : Str),
       ¬(st.path = [] ∨ st.path = st.nd.edge) →
       findStatic st.nd st.path = some (child, rest) →
       lookupStep st = .inr ⟨child, rest, st.ps, some st.nd,
         (if st.nd.param.isSome then some (st.nd, st.path)
          else if st.nd.catchall.isSome then none else st.pn),
         (if st.nd.param.isSome then none
          else if st.nd.catchall.isSome then some (st.nd, st.path) else st.cn)⟩) ∧
    (∀ (st : LookupState) (pnode : Node) (pp : Str) (pr : ParamNode),
       st.pn = some (pnode, pp) →
       st.nd.param = none → st.nd.catchall = none →
       ¬(st.path = [] ∨ st.path = st.nd.edge) →
       findStatic st.nd st.path = none →
       pnode.param = some pr →
       ((pnode.edge = [] ∧ pr.start = nul) ∨ pnode.edge.getLast? = some pr.start) →
       ∀ child : Node, pr.child = some child →
       pp.drop (captureLen pr.stop pp) ≠ [] →
       lookupStep st = .inr ⟨child, pp.drop (captureLen pr.stop pp),
         st.ps ++ [(pr.name, pp.take (captureLen pr.stop pp))], some pnode, none, none⟩) ∧
    paramRouter.map (fun r => r.handlerFor [] (str "/x/bar/b")) =
      some (RouteOutcome.found (getOnly 8) [(str "a", str "x"), (str "c", str "b")]
        (str "/{a}/bar/{c}")) := by
  refine ⟨fun st child rest ht hfs => lookupStep_static_first ht hfs, ?_, by decide⟩
  intro st pnode pp pr hpn hp hc ht hfs hpr hd child hch hne
  rw [lookupStep_param_resume hpn hp hc ht hfs hpr hd]
  rw [if_neg hne, hch]

theorem C2_static_wins_param_resumes_witness :
    paramRouter.map (fun r => r.handlerFor [] (str "/x/bar/b")) =
      some (RouteOutcome.found (getOnly 8) [(str "a", str "x"), (str "c", str "b")]
        (str "/{a}/bar/{c}")) :=
  C2_static_wins_param_resumes.2.2

theorem handle_sets_hosts {r r1 : Router} {m p : Str} {h : Option Handler}
    (hok : Router.handle r m p h = .ok r1) (hp : p.head? ≠ some '/') :
    r1.hosts = true := by
  rw [Router.handle.eq_def] at hok
  by_cases h1 : p = []
  · rw [if_pos h1] at hok
    simp at hok
  · rw [if_neg h1] at hok
    by_cases h2 : m = []
    · rw [if_pos h2] at hok
      simp at hok
    · rw [if_neg h2] at hok
      rcases h with - | hv <;> dsimp only at hok
      · simp at hok
      · rcases r with ⟨hosts0, root0⟩
        dsimp only at hok
        rcases hins : root0.insert m p hv with e | root1 <;> rw [hins] at hok <;>
          dsimp only at hok
        · simp at hok
        · simp only [Except.ok.injEq] at hok
          subst hok
          simp [Router.hosts, if_pos hp]

theorem handlerFor_host_found {r : Router} {host path : Str} {nh : NodeHandler}
    {ps : Params} {pat : Str} {rd : Tsr} (hh : r.hosts = true)
    (hlk : r.root.lookup (host ++ path) [] = ⟨some nh, ps, pat, rd⟩) :
    r.handlerFor host path = .found nh ps pat := by
  rw [Router.handlerFor, if_pos hh, hlk]
  cases rd <;> rfl

theorem handlerFor_host_fallback {r : Router} {host path : Str}
    {a : Params} {b : Str} (hh : r.hosts = true)
    (hlk : r.root.lookup (host ++ path) [] = ⟨none, a, b, .none⟩) :
    r.handlerFor host path = lookupOutcome (r.root.lookup path []) path := by
  rw [Router.handlerFor, if_pos hh, hlk]

/-- The three-pattern registration set of the repository's host tests: one
host-agnostic path pattern and two host-qualified patterns. -/
def hostRouter : Option Router := buildRouter
  [(str "GET", str "/foo/bar", 1), (str "GET", str "example.com/foo/bar", 2),
   (str "GET", str "{sub}.sample.{tld}/foo/bar", 3)]

/-- C6: registering any pattern that does not start with the separator
turns the host-aware flag on; a host-aware router serves whatever the
`host+path` walk finds and falls back to a path-only walk exactly when
that walk produced neither handler nor redirect hint; concretely the
host-qualified pattern wins for `www.sample.co.uk` (binding `sub` and
`tld`), while `www.example.com` falls back to the plain `/foo/bar`
pattern. -/
theorem C6_host_aware_lookup :
    (∀ (r r1 : Router) (m p : Str) (h : Option Handler),
       Router.handle r m p h = .ok r1 → p.head? ≠ some '/' → r1.hosts = true) ∧
    (∀ (r : Router) (host path : Str) (nh : NodeHandler) (ps : Params) (pat : Str) (rd : Tsr),
       r.hosts = true → r.root.lookup (host ++ path) [] = ⟨some nh, ps, pat, rd⟩ →
       r.handlerFor host path = .found nh ps pat) ∧
    (∀ (r : Router) (host path : Str) (a : Params) (b : Str),
       r.hosts = true → r.root.lookup (host ++ path) [] = ⟨none, a, b, .none⟩ →
       r.handlerFor host path = lookupOutcome (r.root.lookup path []) path) ∧
    hostRouter.map Router.hosts = some true ∧
    hostRouter.map (fun r => r.handlerFor (str "www.sample.co.uk") (str "/foo/bar")) =
      some (RouteOutcome.found (getOnly 3) [(str "sub", str "www"), (str "tld", str "co.uk")]
        (str "{sub}.sample.{tld}/foo/bar")) ∧
    hostRouter.map (fun r => r.handlerFor (str "www.example.com") (str "/foo/bar")) =
      some (RouteOutcome.found (getOnly 1) [] (str "/foo/bar")) :=
  ⟨fun _ _ _ _ _ hok hp => handle_sets_hosts hok hp,
   fun _ _ _ _ _ _ _ hh hlk => handlerFor_host_found hh hlk,
   fun _ _ _ _ _ hh hlk => handlerFor_host_fallback hh hlk,
   by decide, by decide, by decide⟩

theorem C6_host_aware_lookup_witness :
    hostRouter.map (fun r => r.handlerFor (str "www.sample.co.uk") (str "/foo/bar")) =
      some (RouteOutcome.found (getOnly 3) [(str "sub", str "www"), (str "tld", str "co.uk")]
        (str "{sub}.sample.{tld}/foo/bar")) :=
  C6_host_aware_lookup.2.2.2.2.1

/-- C3 fails on the code in two ways.  First, with `/a/` and `/a//a`
registered, the request `/a//a/` (the slash-extended form of the
registered `/a//a`, and a path that matches no pattern) is answered by the
handler of `/a/` rather than by a 301 redirect to `/a//a`: when the
remaining input coincidentally equals a node's full edge the lookup
accepts that node.  Second, with `/[a]` and `/[a]/b` registered, the
request `/v/` is answered 404 rather than redirected to `/v`, although
`/v` matches the registered `/[a]`: the dead end inside the parameter
branch's continuation node skips the trailing-slash check of the branch
itself. -/
theorem C3_counterexample :
    ((buildRouter [(str "GET", str "/a/", 1), (str "GET", str "/a//a", 2)]).map
        (fun r => r.handlerFor [] (str "/a//a/")) =
      some (RouteOutcome.found (getOnly 1) [] (str "/a/")) ∧
     specMatches (str "/a/") (str "/a//a/") = none ∧
     specMatches (str "/a//a") (str "/a//a/") = none) ∧
    ((buildRouter [(str "GET", str "/{a}", 1), (str "GET", str "/{a}/b", 2)]).map
        (fun r => r.handlerFor [] (str "/v/")) = some RouteOutcome.notFound ∧
     specMatches (str "/{a}") (str "/v") = some [(str "a", str "v")] ∧
     specMatches (str "/{a}") (str "/v/") = none ∧
     specMatches (str "/{a}/b") (str "/v/") = none) := by
  refine ⟨⟨by decide, by decide, by decide⟩, ⟨by decide, by decide, by decide, by decide⟩⟩

/-- C3 (amended): when the failed walk dead-ends at the trie position that
holds the canonical variant, the router answers with the 301 redirect the
claim describes — slash added, slash removed, removal discovered through a
parameter branch, addition discovered through a parameter continuation —
and with 404 when no variant is registered; the guarantee is only
positional, as the counterexample shows. -/
theorem C3_trailing_slash_redirects :
    (buildRouter [(str "GET", str "/foo/bar", 1)]).map
        (fun r => r.handlerFor [] (str "/foo/bar/")) =
      some (RouteOutcome.redirect (str "/foo/bar")) ∧
    (buildRouter [(str "GET", str "/foo/baz/", 1), (str "GET", str "/foo/bazz", 2)]).map
        (fun r => r.handlerFor [] (str "/foo/baz")) =
      some (RouteOutcome.redirect (str "/foo/baz/")) ∧
    (buildRouter [(str "GET", str "/aaa/{a}", 1)]).map
        (fun r => r.handlerFor [] (str "/aaa/foo/")) =
      some (RouteOutcome.redirect (str "/aaa/foo")) ∧
    (buildRouter [(str "GET", str "/bbb/{b}/", 1)]).map
        (fun r => r.handlerFor [] (str "/bbb/foo")) =
      some (RouteOutcome.redirect (str "/bbb/foo/")) ∧
    (buildRouter [(str "GET", str "/ccc/foo", 1)]).map
        (fun r => r.handlerFor [] (str "/zzz/")) = some RouteOutcome.notFound :=
  ⟨by decide, by decide, by decide, by decide, by decide⟩

/-- The error component of a registration attempt (`none` when the
registration succeeds). -/
def handleErr (r : Router) (m p : Str) (h : Option Handler) : Option HandleError :=
  match r.handle m p h with
  | .error e => some e
  | .ok _ => none

theorem handle_eq (r : Router) (m p : Str) (h : Option Handler) :
    Router.handle r m p h =
      (if p = [] then .error .emptyPattern
       else if m = [] then .error .emptyMethod
       else
         match h with
         | none => .error .nilHandler
         | some hv =>
           match r.root.insert m p hv with
           | .ok root1 => .ok ⟨if p.head? ≠ some '/' then true else r.hosts, root1⟩
           | .error e => .error (.routeErr e)) := by
  rcases r with ⟨hosts0, root0⟩
  rfl

theorem handle_error_classify (r : Router) (m p : Str) (h : Option Handler) :
    (Router.handle r m p h = .error .emptyPattern ↔ p = []) ∧
    (Router.handle r m p h = .error .emptyMethod ↔ (p ≠ [] ∧ m = [])) ∧
    (Router.handle r m p h = .error .nilHandler ↔ (p ≠ [] ∧ m ≠ [] ∧ h = none)) ∧
    (∀ e, Router.handle r m p h = .error (.routeErr e) →
       p ≠ [] ∧ m ≠ [] ∧ ∃ hv, h = some hv ∧ r.root.insert m p hv = .error e) := by
  rw [handle_eq]
  by_cases hp : p = []
  · simp [hp]
  · simp only [if_neg hp]
    by_cases hm : m = []
    · simp [hp, hm]
    · simp only [if_neg hm]
      rcases h with - | hv
      · simp [hp, hm]
      · rcases hins : r.root.insert m p hv with e0 | root1 <;>
          simp only [hins] <;> simp [hp, hm, hins]

theorem lookupHM_append_none {hm : List (Str × Handler)} {m t : Str} {h : Handler} :
    lookupHM (hm ++ [(m, h)]) t = none ↔ (lookupHM hm t = none ∧ ¬m = t) := by
  induction hm with
  | nil => simp [lookupHM]
  | cons q rest ih =>
    obtain ⟨a, b⟩ := q
    rw [List.cons_append, lookupHM, lookupHM]
    by_cases hat : a = t
    · simp [hat]
    · simpa [hat] using ih

theorem setTokens_ok_iff (hm : List (Str × Handler)) (h : Handler) (ts : List Str) :
    (∃ hm1, setTokens hm h ts = .ok hm1) ↔
      ((∀ t ∈ ts, t ≠ [] ∧ lookupHM hm t = none) ∧ ts.Nodup) := by
  induction ts generalizing hm with
  | nil => simp [setTokens]
  | cons m ms ih =>
    rw [setTokens]
    by_cases hme : m = []
    · simp [hme]
    · rw [if_neg hme]
      rcases hl : lookupHM hm m with - | v
      · rw [ih]
        constructor
        · rintro ⟨hall, hnd⟩
          refine ⟨?_, ?_⟩
          · intro t ht
            rcases List.mem_cons.mp ht with rfl | ht
            · exact ⟨hme, hl⟩
            · have := hall t ht
              exact ⟨this.1, (lookupHM_append_none.mp this.2).1⟩
          · refine List.Pairwise.cons ?_ hnd
            intro t ht heq
            exact (lookupHM_append_none.mp (hall t ht).2).2 (heq ▸ rfl)
        · rintro ⟨hall, hnd⟩
          refine ⟨?_, (List.pairwise_cons.mp hnd).2⟩
          intro t ht
          refine ⟨(hall t (List.mem_cons_of_mem _ ht)).1, lookupHM_append_none.mpr
            ⟨(hall t (List.mem_cons_of_mem _ ht)).2, ?_⟩⟩
          intro hmt
          exact (List.pairwise_cons.mp hnd).1 t ht hmt
      · simp only [iff_false, not_exists]
        constructor
        · intro hx
          obtain ⟨hm1, hok⟩ := hx
          simp at hok
        · rintro ⟨hall, -⟩
          have := (hall m (List.mem_cons_self _ _)).2
          rw [hl] at this
          exact absurd this (by simp)

theorem set_ok_iff (nh : NodeHandler) (m : Str) (h : Handler) :
    (∃ nh1, NodeHandler.set nh m h = .ok nh1) ↔
      ((∀ t ∈ splitComma m, t ≠ [] ∧ lookupHM nh.hm t = none) ∧ (splitComma m).Nodup) := by
  rw [← setTokens_ok_iff nh.hm h (splitComma m)]
  rw [NodeHandler.set]
  constructor
  · rintro ⟨nh1, hok⟩
    rcases hst : setTokens nh.hm h (splitComma m) with e | hm1 <;> rw [hst] at hok
    · simp at hok
    · exact ⟨hm1, rfl⟩
  · rintro ⟨hm1, hok⟩
    rw [hok]
    exact ⟨_, rfl⟩

/-- C4: the failure conditions of `Router.Handle`.  The three argument
checks are characterized exactly (empty pattern, then empty method, then
nil handler); any trie-level failure implies the arguments passed those
checks and `insert` returned one of its route errors; a method-table
registration succeeds precisely when every comma-separated token is
nonempty, not yet registered, and not duplicated; and each insert-level
failure condition of the claim fires on a representative instance
(unterminated parameter brace, parameter-name conflict, end-delimiter
conflict, duplicate method on the same terminal pattern, empty method
token), while an unproblematic registration succeeds. -/
theorem C4_registration_failure_conditions :
    (∀ (r : Router) (m p : Str) (h : Option Handler),
       (Router.handle r m p h = .error .emptyPattern ↔ p = []) ∧
       (Router.handle r m p h = .error .emptyMethod ↔ (p ≠ [] ∧ m = [])) ∧
       (Router.handle r m p h = .error .nilHandler ↔ (p ≠ [] ∧ m ≠ [] ∧ h = none)) ∧
       (∀ e, Router.handle r m p h = .error (.routeErr e) →
          p ≠ [] ∧ m ≠ [] ∧ ∃ hv, h = some hv ∧ r.root.insert m p hv = .error e)) ∧
    (∀ (nh : NodeHandler) (m : Str) (h : Handler),
       (∃ nh1, NodeHandler.set nh m h = .ok nh1) ↔
         ((∀ t ∈ splitComma m, t ≠ [] ∧ lookupHM nh.hm t = none) ∧ (splitComma m).Nodup)) ∧
    handleErr Router.new (str "GET") ['/', 'x', '{', 'a'] (some 3) =
      some (.routeErr .unclosedParam) ∧
    (buildRouter [(str "GET", str "/foo", 1), (str "GET", str "/foo/{bar_id}", 2)]).map
        (fun r => handleErr r (str "GET") (str "/foo/{bar_name}") (some 3)) =
      some (some (.routeErr (.paramConflict (str "bar_name") (str "bar_id")))) ∧
    (buildRouter [(str "GET", str "/{a}x", 1)]).map
        (fun r => handleErr r (str "GET") (str "/{a}y") (some 2)) =
      some (some (.routeErr (.separatorConflict 'y' 'x'))) ∧
    (buildRouter [(str "GET", str "/foo", 1)]).map
        (fun r => handleErr r (str "GET") (str "/foo") (some 2)) =
      some (some (.routeErr (.methodConflict (str "GET")))) ∧
    handleErr Router.new (str "GET,POST,,PUT") (str "/foo/bar") (some 1) =
      some (.routeErr .missingMethod) ∧
    handleErr Router.new (str "GET") (str "/ok") (some 1) = none :=
  ⟨handle_error_classify, set_ok_iff, by decide, by decide, by decide, by decide,
   by decide, by decide⟩

theorem C4_registration_failure_conditions_witness :
    Router.handle Router.new (str "GET") [] none = .error .emptyPattern :=
  ((C4_registration_failure_conditions.1 Router.new (str "GET") [] none).1).mpr rfl

/-- The per-chunk quirk-exclusion condition under which the singleton
completeness theorem for C1 holds: along the token-wise consumption of the
key by the pattern, the key remainder left after a static chunk never
coincides with the chunk itself (the lookup loop accepts or dead-ends
early in that case), except at the very end of the pattern. -/
def cleanWalkF : Nat → Str → Str → Bool
  | 0, _, _ => true
  | f + 1, pat, key =>
    match pat with
    | [] => true
    | c :: pr =>
      if c = '{' then
        match idxOfChar '}' pr with
        | none => true
        | some j =>
          cleanWalkF f (pr.drop (j + 1)) (key.drop (specCapture ((pr.drop (j + 1)).head?) key))
      else if c = '*' then true
      else
        (decide (¬key.drop (staticCut (c :: pr)) = (c :: pr).take (staticCut (c :: pr))) ||
          decide ((c :: pr).drop (staticCut (c :: pr)) = [])) &&
        cleanWalkF f ((c :: pr).drop (staticCut (c :: pr)))
          (key.drop (staticCut (c :: pr)))

/-- Entry point of the chunk-cleanness predicate. -/
def cleanWalk (pat key : Str) : Bool := cleanWalkF (pat.length + 1) pat key

theorem specCapture_eq_captureLen {d : Char} {key : Str} :
    specCapture (some d) key = captureLen d key := by
  induction key with
  | nil => rfl
  | cons c rest ih =>
    rw [specCapture, captureLen]
    by_cases h1 : c = '/' ∨ some c = some d
    · rw [if_pos h1]
      have : ¬(c ≠ d ∧ c ≠ '/') := by
        rcases h1 with h | h
        · simp [h]
        · simp at h
          simp [h]
      rw [if_neg this]
    · rw [if_neg h1]
      push_neg at h1
      have : c ≠ d ∧ c ≠ '/' := ⟨by simpa using h1.2, h1.1⟩
      rw [if_pos this, ih]

theorem specCapture_none_eq_captureLen_nul {key : Str} (hk : nul ∉ key) :
    specCapture none key = captureLen nul key := by
  induction key with
  | nil => rfl
  | cons c rest ih =>
    have hc : c ≠ nul := fun hcc => hk (hcc ▸ List.mem_cons_self _ _)
    rw [specCapture, captureLen]
    by_cases h1 : c = '/'
    · rw [if_pos (Or.inl h1), if_neg (by simp [h1])]
    · rw [if_neg (by simp [h1]), if_pos ⟨hc, h1⟩,
        ih (fun hm => hk (List.mem_cons_of_mem _ hm))]

theorem specMatchesF_congr :
    ∀ (n : Nat) (pat key : Str) (f1 f2 : Nat), pat.length ≤ n →
      pat.length + 1 ≤ f1 → pat.length + 1 ≤ f2 →
      specMatchesF f1 pat key = specMatchesF f2 pat key := by
  intro n
  induction n with
  | zero =>
    intro pat key f1 f2 hn h1 h2
    have hp : pat = [] := List.length_eq_zero.mp (Nat.le_zero.mp hn)
    subst hp
    rcases f1 with - | g1
    · omega
    rcases f2 with - | g2
    · omega
    rfl
  | succ n ih =>
    intro pat key f1 f2 hn h1 h2
    rcases f1 with - | g1
    · omega
    rcases f2 with - | g2
    · omega
    rcases pat with - | ⟨c, pr⟩
    · rfl
    simp only [specMatchesF]
    by_cases hc1 : c = '{'
    · rw [if_pos hc1, if_pos hc1]
      rcases hj : idxOfChar '}' pr with - | j
    -- both none-branches agree
      · rfl
      · have hofter : (pr.drop (j + 1)).length + 1 ≤ g1 ∧ (pr.drop (j + 1)).length + 1 ≤ g2 := by
          simp only [List.length_cons] at h1 h2
          have := List.length_drop (j + 1) pr
          omega
        have hrec := ih (pr.drop (j + 1)) (key.drop (specCapture ((pr.drop (j + 1)).head?) key))
          g1 g2 (by have := List.length_drop (j + 1) pr; simp only [List.length_cons] at hn; omega)
          hofter.1 hofter.2
        simp only [hrec]
    · rw [if_neg hc1, if_neg hc1]
      by_cases hc2 : c = '*'
      · rw [if_pos hc2, if_pos hc2]
      · rw [if_neg hc2, if_neg hc2]
        rcases key with - | ⟨k, kr⟩
        · rfl
        · dsimp only
          by_cases hck : c = k
          · rw [if_pos hck, if_pos hck]
            exact ih pr kr g1 g2 (by simp only [List.length_cons] at hn; omega)
              (by simp only [List.length_cons] at h1; omega)
              (by simp only [List.length_cons] at h2; omega)
          · rw [if_neg hck, if_neg hck]

/-- Patterns within the spec's grammar: a catch-all marker never occurs
inside a static run (insert would embed it into a literal edge, while the
spec reads it as a token). -/
def patWF : Nat → Str → Bool
  | 0, _ => true
  | f + 1, pat =>
    match pat with
    | [] => true
    | c :: pr =>
      if c = '{' then
        match idxOfChar '}' pr with
        | none => true
        | some j => patWF f (pr.drop (j + 1))
      else if c = '*' then true
      else
        (decide (∀ x ∈ pat.take (staticCut pat), ¬x = '*')) &&
        patWF f (pat.drop (staticCut pat))

theorem cleanWalkF_congr :
    ∀ (n : Nat) (pat key : Str) (f1 f2 : Nat), pat.length ≤ n →
      pat.length + 1 ≤ f1 → pat.length + 1 ≤ f2 →
      cleanWalkF f1 pat key = cleanWalkF f2 pat key := by
  intro n
  induction n with
  | zero =>
    intro pat key f1 f2 hn h1 h2
    have hp : pat = [] := List.length_eq_zero.mp (Nat.le_zero.mp hn)
    subst hp
    rcases f1 with - | g1
    · omega
    rcases f2 with - | g2
    · omega
    rfl
  | succ n ih =>
    intro pat key f1 f2 hn h1 h2
    rcases f1 with - | g1
    · omega
    rcases f2 with - | g2
    · omega
    rcases pat with - | ⟨c, pr⟩
    · rfl
    simp only [cleanWalkF]
    by_cases hc1 : c = '{'
    · rw [if_pos hc1, if_pos hc1]
      rcases hj : idxOfChar '}' pr with - | j
      · rfl
      · exact ih (pr.drop (j + 1)) _ g1 g2
          (by have := List.length_drop (j + 1) pr; simp only [List.length_cons] at hn; omega)
          (by have := List.length_drop (j + 1) pr; simp only [List.length_cons] at h1; omega)
          (by have := List.length_drop (j + 1) pr; simp only [List.length_cons] at h2; omega)
    · rw [if_neg hc1, if_neg hc1]
      by_cases hc2 : c = '*'
      · rw [if_pos hc2, if_pos hc2]
      · rw [if_neg hc2, if_neg hc2]
        have hcut : 1 ≤ staticCut (c :: pr) := staticCut_pos hc1 hc2
        have hlen := List.length_drop (staticCut (c :: pr)) (c :: pr)
        simp only [List.length_cons] at hn h1 h2 hlen
        rw [ih ((c :: pr).drop (staticCut (c :: pr))) _ g1 g2 (by omega) (by omega) (by omega)]

theorem patWF_congr :
    ∀ (n : Nat) (pat : Str) (f1 f2 : Nat), pat.length ≤ n →
      pat.length + 1 ≤ f1 → pat.length + 1 ≤ f2 →
      patWF f1 pat = patWF f2 pat := by
  intro n
  induction n with
  | zero =>
    intro pat f1 f2 hn h1 h2
    have hp : pat = [] := List.length_eq_zero.mp (Nat.le_zero.mp hn)
    subst hp
    rcases f1 with - | g1
    · omega
    rcases f2 with - | g2
    · omega
    rfl
  | succ n ih =>
    intro pat f1 f2 hn h1 h2
    rcases f1 with - | g1
    · omega
    rcases f2 with - | g2
    · omega
    rcases pat with - | ⟨c, pr⟩
    · rfl
    simp only [patWF]
    by_cases hc1 : c = '{'
    · rw [if_pos hc1, if_pos hc1]
      rcases hj : idxOfChar '}' pr with - | j
      · rfl
      · exact ih (pr.drop (j + 1)) g1 g2
          (by have := List.length_drop (j + 1) pr; simp only [List.length_cons] at hn; omega)
          (by have := List.length_drop (j + 1) pr; simp only [List.length_cons] at h1; omega)
          (by have := List.length_drop (j + 1) pr; simp only [List.length_cons] at h2; omega)
    · rw [if_neg hc1, if_neg hc1]
      by_cases hc2 : c = '*'
      · rw [if_pos hc2, if_pos hc2]
      · rw [if_neg hc2, if_neg hc2]
        have hcut : 1 ≤ staticCut (c :: pr) := staticCut_pos hc1 hc2
        have hlen := List.length_drop (staticCut (c :: pr)) (c :: pr)
        simp only [List.length_cons] at hn h1 h2 hlen
        rw [ih ((c :: pr).drop (staticCut (c :: pr))) g1 g2 (by omega) (by omega) (by omega)]

theorem specMatchesF_key_nil {f : Nat} {c : Char} {pr : Str} :
    specMatchesF f (c :: pr) [] = none := by
  rcases f with - | g
  · rfl
  rw [specMatchesF]
  by_cases hc1 : c = '{'
  · rw [if_pos hc1]
    rcases hj : idxOfChar '}' pr with - | j
    · rfl
    · simp [specCapture]
  · rw [if_neg hc1]
    by_cases hc2 : c = '*'
    · rw [if_pos hc2]
      simp
    · rw [if_neg hc2]

theorem idxOfChar_none_forall {c : Char} {s : Str} (h : idxOfChar c s = none) :
    ∀ x ∈ s, ¬x = c := by
  induction s with
  | nil => simp
  | cons a rest ih =>
    rw [idxOfChar] at h
    by_cases hac : a = c
    · rw [if_pos hac] at h
      simp at h
    · rw [if_neg hac] at h
      simp only [Option.map_eq_none'] at h
      intro x hx
      rcases List.mem_cons.mp hx with rfl | hx
      · exact hac
      · exact ih h x hx

theorem idxOfChar_take {c : Char} {s : Str} {i : Nat} (h : idxOfChar c s = some i) :
    ∀ x ∈ s.take i, ¬x = c := by
  induction s generalizing i with
  | nil => simp
  | cons a rest ih =>
    rw [idxOfChar] at h
    by_cases hac : a = c
    · rw [if_pos hac] at h
      simp only [Option.some.injEq] at h
      subst h
      simp
    · rw [if_neg hac] at h
      rw [Option.map_eq_some'] at h
      obtain ⟨j, hj, rfl⟩ := h
      intro x hx
      rw [List.take_succ_cons] at hx
      rcases List.mem_cons.mp hx with rfl | hx
      · exact hac
      · exact ih hj x hx

theorem staticCut_no_brace {pat : Str} :
    ∀ x ∈ pat.take (staticCut pat), ¬x = '{' := by
  rw [staticCut]
  rcases h1 : idxOfChar '{' pat with - | i
  · intro x hx
    exact idxOfChar_none_forall h1 x (List.take_subset _ _ hx)
  · exact idxOfChar_take h1

/-- The entry-point pattern well-formedness check. -/
def patOK (pat : Str) : Bool := patWF (pat.length + 1) pat

theorem specMatches_key_nil {c : Char} {pr : Str} : specMatches (c :: pr) [] = none := by
  rw [specMatches]
  exact specMatchesF_key_nil

theorem reconcile_nul {a : Char} : reconcileDelim a nul = .ok a := by
  rw [reconcileDelim]
  by_cases ha : a = nul
  · rw [if_neg (not_not_intro ha)]
  · rw [if_pos ha, if_neg (fun h => h.2 rfl), if_neg ha]

theorem splitComma_no_comma {m : Str} (h : ',' ∉ m) : splitComma m = [m] := by
  induction m with
  | nil => rfl
  | cons c rest ih =>
    rw [splitComma]
    have hc : ¬c = ',' := fun hcc => h (hcc ▸ List.mem_cons_self _ _)
    rw [if_neg hc, ih (fun hm => h (List.mem_cons_of_mem _ hm))]

theorem set_isSet {nh0 nh1 : NodeHandler} {m : Str} {hv : Handler}
    (h : NodeHandler.set nh0 m hv = .ok nh1) : nh1.isSet = true := by
  rw [NodeHandler.set] at h
  rcases hs : setTokens nh0.hm hv (splitComma m) with er | hm2 <;> rw [hs] at h <;>
    dsimp only at h
  · exact absurd h (by simp)
  · simp only [Except.ok.injEq] at h
    subst h
    rfl

theorem empty_set_serve {m : Str} {hv : Handler} {nh : NodeHandler}
    (h : NodeHandler.set NodeHandler.empty m hv = .ok nh) (hcm : ',' ∉ m) :
    nh.serve m = .handled hv := by
  rw [NodeHandler.set, splitComma_no_comma hcm] at h
  rw [show NodeHandler.empty.hm = [] from rfl] at h
  rw [setTokens] at h
  by_cases hm0 : m = []
  · rw [if_pos hm0] at h
    exact absurd h (by simp)
  · rw [if_neg hm0] at h
    rw [show lookupHM [] m = none from rfl] at h
    dsimp only at h
    rw [setTokens] at h
    simp only [List.nil_append, Except.ok.injEq] at h
    subst h
    rw [NodeHandler.serve]
    dsimp only
    rw [lookupHM, if_pos rfl]

theorem insertLoop_edge {m f : Str} {hv : Handler} {fuel : Nat} {nd0 nd1 : Node} {pat : Str}
    {mp : Nat} (hok : insertLoop m f hv fuel nd0 pat mp = .ok nd1) : nd1.edge = nd0.edge := by
  rcases fuel with - | fl
  · rw [insertLoop] at hok
    exact absurd hok (by simp)
  rcases nd0 with ⟨e, p0, hd, m0, ix, cs, pm, ca⟩
  rw [insertLoop.eq_def] at hok
  rcases pat with - | ⟨c0, pt⟩
  · dsimp only at hok
    rcases hs : NodeHandler.set hd m hv with er | nh <;> rw [hs] at hok <;> dsimp only at hok
    · exact absurd hok (by simp)
    · simp only [Except.ok.injEq] at hok
      subst hok
      rfl
  · dsimp only at hok
    by_cases hstar : c0 = '*'
    · rw [if_pos hstar] at hok
      rcases hs : NodeHandler.set (ca.getD ⟨[], [], NodeHandler.empty⟩).handler m hv
          with er | nh <;> rw [hs] at hok <;> dsimp only at hok
      · exact absurd hok (by simp)
      · simp only [Except.ok.injEq] at hok
        subst hok
        rfl
    · rw [if_neg hstar] at hok
      by_cases hbr : c0 = '{'
      · rw [if_pos hbr] at hok
        rcases hi : idxOfChar '}' (c0 :: pt) with - | i <;> rw [hi] at hok <;> dsimp only at hok
        · exact absurd hok (by simp)
        · rcases hg : pm.getD (.mk nul nul (((c0 :: pt).take i).drop 1) [] NodeHandler.empty none)
              with ⟨ps0, pe0, pn0, pp0, ph0, pc0⟩
          rw [hg] at hok
          dsimp only at hok
          by_cases hpn : pn0 ≠ [] ∧ pn0 ≠ ((c0 :: pt).take i).drop 1
          · rw [if_pos hpn] at hok
            exact absurd hok (by simp)
          · rw [if_neg hpn] at hok
            rcases hr1 : reconcileDelim (e.getLast?.getD nul) ps0 with ⟨a, b⟩ | s1 <;>
              rw [hr1] at hok <;> dsimp only at hok
            · exact absurd hok (by simp)
            · rcases hr2 : reconcileDelim ((((c0 :: pt).drop (i + 1)).head?).getD nul) pe0
                  with ⟨a, b⟩ | s2 <;> rw [hr2] at hok <;> dsimp only at hok
              · exact absurd hok (by simp)
              · by_cases hterm : (c0 :: pt).drop (i + 1) = []
                · rw [if_pos hterm] at hok
                  rcases hs : NodeHandler.set ph0 m hv with er | nh <;> rw [hs] at hok <;>
                    dsimp only at hok
                  · exact absurd hok (by simp)
                  · simp only [Except.ok.injEq] at hok
                    subst hok
                    rfl
                · rw [if_neg hterm] at hok
                  rcases hrec : insertLoop m f hv fl (pc0.getD Node.empty)
                      ((c0 :: pt).drop (i + 1)) ((mp + 255) % 256) with er | ch <;>
                    rw [hrec] at hok <;> dsimp only at hok
                  · exact absurd hok (by simp)
                  · simp only [Except.ok.injEq] at hok
                    subst hok
                    rfl
      · rw [if_neg hbr] at hok
        rcases hfe : findEdgeChild cs c0 with - | ⟨i, ⟨ne, np, nh2, nm2, ni, nc, npm, nca⟩⟩ <;>
          rw [hfe] at hok <;> dsimp only at hok
        · rcases hrec : insertLoop m f hv fl
              (.mk ((c0 :: pt).take (staticCut (c0 :: pt))) [] NodeHandler.empty mp [] [] none
                none) ((c0 :: pt).drop (staticCut (c0 :: pt))) mp with er | ch <;>
            rw [hrec] at hok <;> dsimp only at hok
          · exact absurd hok (by simp)
          · simp only [Except.ok.injEq] at hok
            subst hok
            rfl
        · rcases hrec : insertLoop m f hv fl
              (if cpl ne (c0 :: pt) < ne.length then
                Node.mk (ne.take (cpl ne (c0 :: pt))) [] NodeHandler.empty 0
                  [((ne.drop (cpl ne (c0 :: pt))).headD nul)]
                  [Node.mk (ne.drop (cpl ne (c0 :: pt))) np nh2 nm2 ni nc npm nca] none none
               else .mk ne np nh2 nm2 ni nc npm nca)
              ((c0 :: pt).drop (cpl ne (c0 :: pt))) mp with er | n2 <;>
            rw [hrec] at hok <;> dsimp only at hok
          · exact absurd hok (by simp)
          · simp only [Except.ok.injEq] at hok
            subst hok
            rfl

theorem isPfx_cons_pos {a b : Char} {as bs : Str} (hab : a = b) :
    isPfx (a :: as) (b :: bs) = isPfx as bs := by
  subst hab
  simp [isPfx]

theorem isPfx_cons_neg {a b : Char} {as bs : Str} (hab : ¬a = b) :
    isPfx (a :: as) (b :: bs) = false := by
  simp [isPfx, hab]

theorem isPfx_cons_inv {a : Char} {as key : Str} (h : isPfx (a :: as) key = true) :
    ∃ kr, key = a :: kr ∧ isPfx as kr = true := by
  rcases key with - | ⟨k, kr⟩
  · exact absurd h (by simp [isPfx])
  · by_cases hak : a = k
    · subst hak
      rw [isPfx_cons_pos rfl] at h
      exact ⟨kr, rfl, h⟩
    · rw [isPfx_cons_neg hak] at h
      exact absurd h (by simp)

theorem idxOfChar_le {c : Char} {s : Str} {i : Nat} (h : idxOfChar c s = some i) :
    i ≤ s.length := by
  induction s generalizing i with
  | nil => simp [idxOfChar] at h
  | cons a rest ih =>
    rw [idxOfChar] at h
    by_cases hac : a = c
    · rw [if_pos hac] at h
      simp only [Option.some.injEq] at h
      omega
    · rw [if_neg hac] at h
      rw [Option.map_eq_some'] at h
      obtain ⟨j, hj, rfl⟩ := h
      have := ih hj
      simp only [List.length_cons]
      omega

theorem staticCut_le {pat : Str} : staticCut pat ≤ pat.length := by
  rw [staticCut]
  rcases h1 : idxOfChar '{' pat with - | i
  · rcases h2 : idxOfChar '*' pat with - | j
    · exact Nat.le_refl _
    · exact idxOfChar_le h2
  · exact idxOfChar_le h1

theorem specMatches_chunk : ∀ (ch rest key : Str),
    (∀ x ∈ ch, ¬x = '{' ∧ ¬x = '*') →
    specMatches (ch ++ rest) key =
      if isPfx ch key = true then specMatches rest (key.drop ch.length) else none := by
  intro ch
  induction ch with
  | nil =>
    intro rest key hch
    simp [isPfx]
  | cons c cst ih =>
    intro rest key hch
    obtain ⟨hc1, hc2⟩ := hch c (List.mem_cons_self _ _)
    have hch' : ∀ x ∈ cst, ¬x = '{' ∧ ¬x = '*' := fun x hx => hch x (List.mem_cons_of_mem _ hx)
    rw [List.cons_append, specMatches]
    simp only [specMatchesF]
    rw [if_neg hc1, if_neg hc2]
    rcases key with - | ⟨k, kr⟩
    · dsimp only
      rw [show isPfx (c :: cst) [] = false from rfl]
      simp
    · dsimp only
      by_cases hck : c = k
      · rw [if_pos hck]
        have hgoal : specMatches (cst ++ rest) kr =
            if isPfx (c :: cst) (k :: kr) = true then
              specMatches rest ((k :: kr).drop (c :: cst).length) else none := by
          rw [ih rest kr hch', isPfx_cons_pos hck]
          rw [show (k :: kr).drop (c :: cst).length = kr.drop cst.length from by
            simp only [List.length_cons, List.drop_succ_cons]]
        exact hgoal
      · rw [if_neg hck, isPfx_cons_neg hck]
        simp

theorem lookupStep_terminal_set {st : LookupState}
    (ht : st.path = [] ∨ st.path = st.nd.edge) (hset : st.nd.handler.isSet = true) :
    lookupStep st = .inl ⟨some st.nd.handler, st.ps, st.nd.pattern, .none⟩ := by
  rw [lookupStep, if_pos ht]
  simp only [hset, if_true]

theorem lookupStep_param_here {st : LookupState} {pr : ParamNode}
    (hpr : st.nd.param = some pr)
    (ht : ¬(st.path = [] ∨ st.path = st.nd.edge))
    (hfs : findStatic st.nd st.path = none)
    (hd : (st.nd.edge = [] ∧ pr.start = nul) ∨ st.nd.edge.getLast? = some pr.start) :
    lookupStep st =
      (if st.path.drop (captureLen pr.stop st.path) = [] then
        (if pr.handler.isSet then
          .inl ⟨some pr.handler, st.ps ++ [(pr.name, st.path.take (captureLen pr.stop st.path))],
                pr.pattern, .none⟩
         else .inl (recommend pr.child []))
       else
        match pr.child with
        | none =>
          if st.path.drop (captureLen pr.stop st.path) = ['/'] ∧ pr.handler.isSet then
            .inl ⟨none, [], [], .withoutSlash⟩
          else .inl ⟨none, [], [], .none⟩
        | some child =>
          .inr ⟨child, st.path.drop (captureLen pr.stop st.path),
                st.ps ++ [(pr.name, st.path.take (captureLen pr.stop st.path))], some st.nd,
                none, none⟩) := by
  rw [lookupStep, if_neg ht]
  simp only [hpr, Option.isSome_some, if_true, hfs]
  rw [if_pos hd]

theorem specMatchesF_succ_nil {f : Nat} {key : Str} :
    specMatchesF (f + 1) [] key = if key = [] then some [] else none := rfl

theorem specMatchesF_succ_star {f : Nat} {nm key : Str} :
    specMatchesF (f + 1) ('*' :: nm) key = if key = [] then none else some [(nm, key)] := rfl

theorem specMatchesF_succ_brace {f : Nat} {ptail key : Str} :
    specMatchesF (f + 1) ('{' :: ptail) key =
      (match idxOfChar '}' ptail with
       | none => none
       | some j =>
         if specCapture ((ptail.drop (j + 1)).head?) key = 0 then none
         else (specMatchesF f (ptail.drop (j + 1))
             (key.drop (specCapture ((ptail.drop (j + 1)).head?) key))).map
           (fun bs => (ptail.take j, key.take (specCapture ((ptail.drop (j + 1)).head?) key))
             :: bs)) := rfl

theorem specMatchesF_succ_char {f : Nat} {c0 : Char} {ptail key : Str}
    (hc1 : ¬c0 = '{') (hc2 : ¬c0 = '*') :
    specMatchesF (f + 1) (c0 :: ptail) key =
      (match key with
       | [] => none
       | k :: kr => if c0 = k then specMatchesF f ptail kr else none) := by
  simp only [specMatchesF]
  rw [if_neg hc1, if_neg hc2]

theorem patWF_succ_brace {f : Nat} {ptail : Str} :
    patWF (f + 1) ('{' :: ptail) =
      (match idxOfChar '}' ptail with
       | none => true
       | some j => patWF f (ptail.drop (j + 1))) := rfl

theorem patWF_succ_char {f : Nat} {c0 : Char} {ptail : Str}
    (hc1 : ¬c0 = '{') (hc2 : ¬c0 = '*') :
    patWF (f + 1) (c0 :: ptail) =
      ((decide (∀ x ∈ (c0 :: ptail).take (staticCut (c0 :: ptail)), ¬x = '*')) &&
       patWF f ((c0 :: ptail).drop (staticCut (c0 :: ptail)))) := by
  simp only [patWF]
  rw [if_neg hc1, if_neg hc2]

theorem cleanWalkF_succ_brace {f : Nat} {ptail key : Str} :
    cleanWalkF (f + 1) ('{' :: ptail) key =
      (match idxOfChar '}' ptail with
       | none => true
       | some j => cleanWalkF f (ptail.drop (j + 1))
           (key.drop (specCapture ((ptail.drop (j + 1)).head?) key))) := rfl

theorem cleanWalkF_succ_char {f : Nat} {c0 : Char} {ptail key : Str}
    (hc1 : ¬c0 = '{') (hc2 : ¬c0 = '*') :
    cleanWalkF (f + 1) (c0 :: ptail) key =
      ((decide (¬key.drop (staticCut (c0 :: ptail)) = (c0 :: ptail).take (staticCut (c0 :: ptail)))
          || decide ((c0 :: ptail).drop (staticCut (c0 :: ptail)) = [])) &&
       cleanWalkF f ((c0 :: ptail).drop (staticCut (c0 :: ptail)))
         (key.drop (staticCut (c0 :: ptail)))) := by
  simp only [cleanWalkF]
  rw [if_neg hc1, if_neg hc2]

theorem specMatches_nil_inv {key : Str} {bs : Params}
    (hm : specMatches [] key = some bs) : key = [] ∧ bs = [] := by
  rw [specMatches, specMatchesF_succ_nil] at hm
  by_cases hkey : key = []
  · rw [if_pos hkey] at hm
    simp only [Option.some.injEq] at hm
    exact ⟨hkey, hm.symm⟩
  · rw [if_neg hkey] at hm
    exact absurd hm (by simp)

theorem specMatches_star {nm key : Str} {bs : Params}
    (hm : specMatches ('*' :: nm) key = some bs) : ¬key = [] ∧ bs = [(nm, key)] := by
  rw [specMatches, specMatchesF_succ_star] at hm
  by_cases hkey : key = []
  · rw [if_pos hkey] at hm
    exact absurd hm (by simp)
  · rw [if_neg hkey] at hm
    simp only [Option.some.injEq] at hm
    exact ⟨hkey, hm.symm⟩

theorem specMatches_brace {ptail key : Str} {bs : Params} {j : Nat}
    (hj : idxOfChar '}' ptail = some j)
    (hm : specMatches ('{' :: ptail) key = some bs) :
    ¬specCapture ((ptail.drop (j + 1)).head?) key = 0 ∧
    ∃ bs', specMatches (ptail.drop (j + 1))
        (key.drop (specCapture ((ptail.drop (j + 1)).head?) key)) = some bs' ∧
      bs = (ptail.take j, key.take (specCapture ((ptail.drop (j + 1)).head?) key)) :: bs' := by
  rw [specMatches, specMatchesF_succ_brace, hj] at hm
  dsimp only at hm
  by_cases hcap : specCapture ((ptail.drop (j + 1)).head?) key = 0
  · rw [if_pos hcap] at hm
    exact absurd hm (by simp)
  · rw [if_neg hcap] at hm
    rw [Option.map_eq_some'] at hm
    obtain ⟨bs', hbs', hbs⟩ := hm
    refine ⟨hcap, bs', ?_, hbs.symm⟩
    rw [specMatches]
    rw [specMatchesF_congr (ptail.drop (j + 1)).length (ptail.drop (j + 1)) _
      ((ptail.drop (j + 1)).length + 1) (('{' :: ptail : Str).length) le_rfl le_rfl
      (by simp only [List.length_cons]; have := List.length_drop (j + 1) ptail; omega)]
    exact hbs'

theorem patOK_brace {ptail : Str} {j : Nat} (hj : idxOfChar '}' ptail = some j)
    (h : patOK ('{' :: ptail) = true) : patOK (ptail.drop (j + 1)) = true := by
  rw [patOK, patWF_succ_brace, hj] at h
  dsimp only at h
  rw [patOK, patWF_congr (ptail.drop (j + 1)).length (ptail.drop (j + 1))
    ((ptail.drop (j + 1)).length + 1) (('{' :: ptail : Str).length) le_rfl le_rfl
    (by simp only [List.length_cons]; have := List.length_drop (j + 1) ptail; omega)]
  exact h

theorem patOK_static {c0 : Char} {ptail : Str} (hc1 : ¬c0 = '{') (hc2 : ¬c0 = '*')
    (h : patOK (c0 :: ptail) = true) :
    (∀ x ∈ (c0 :: ptail).take (staticCut (c0 :: ptail)), ¬x = '*') ∧
    patOK ((c0 :: ptail).drop (staticCut (c0 :: ptail))) = true := by
  rw [patOK, patWF_succ_char hc1 hc2, Bool.and_eq_true] at h
  obtain ⟨h1, h2⟩ := h
  refine ⟨of_decide_eq_true h1, ?_⟩
  rw [patOK, patWF_congr ((c0 :: ptail).drop (staticCut (c0 :: ptail))).length
    ((c0 :: ptail).drop (staticCut (c0 :: ptail)))
    (((c0 :: ptail).drop (staticCut (c0 :: ptail))).length + 1) ((c0 :: ptail : Str).length)
    le_rfl le_rfl
    (by
      have hcut := @staticCut_pos c0 ptail hc1 hc2
      have := List.length_drop (staticCut (c0 :: ptail)) (c0 :: ptail)
      simp only [List.length_cons] at this ⊢
      omega)]
  exact h2

theorem cleanWalk_brace {ptail key : Str} {j : Nat} (hj : idxOfChar '}' ptail = some j)
    (h : cleanWalk ('{' :: ptail) key = true) :
    cleanWalk (ptail.drop (j + 1))
      (key.drop (specCapture ((ptail.drop (j + 1)).head?) key)) = true := by
  rw [cleanWalk, cleanWalkF_succ_brace, hj] at h
  dsimp only at h
  rw [cleanWalk, cleanWalkF_congr (ptail.drop (j + 1)).length (ptail.drop (j + 1)) _
    ((ptail.drop (j + 1)).length + 1) (('{' :: ptail : Str).length) le_rfl le_rfl
    (by simp only [List.length_cons]; have := List.length_drop (j + 1) ptail; omega)]
  exact h

theorem cleanWalk_static {c0 : Char} {ptail key : Str} (hc1 : ¬c0 = '{') (hc2 : ¬c0 = '*')
    (h : cleanWalk (c0 :: ptail) key = true) :
    (¬key.drop (staticCut (c0 :: ptail)) = (c0 :: ptail).take (staticCut (c0 :: ptail)) ∨
      (c0 :: ptail).drop (staticCut (c0 :: ptail)) = []) ∧
    cleanWalk ((c0 :: ptail).drop (staticCut (c0 :: ptail)))
      (key.drop (staticCut (c0 :: ptail))) = true := by
  rw [cleanWalk, cleanWalkF_succ_char hc1 hc2, Bool.and_eq_true] at h
  obtain ⟨h1, h2⟩ := h
  constructor
  · rcases Bool.or_eq_true _ _ |>.mp h1 with hd | hd
    · exact Or.inl (of_decide_eq_true hd)
    · exact Or.inr (of_decide_eq_true hd)
  · rw [cleanWalk, cleanWalkF_congr ((c0 :: ptail).drop (staticCut (c0 :: ptail))).length
      ((c0 :: ptail).drop (staticCut (c0 :: ptail))) _
      (((c0 :: ptail).drop (staticCut (c0 :: ptail))).length + 1) ((c0 :: ptail : Str).length)
      le_rfl le_rfl
      (by
        have hcut := @staticCut_pos c0 ptail hc1 hc2
        have := List.length_drop (staticCut (c0 :: ptail)) (c0 :: ptail)
        simp only [List.length_cons] at this ⊢
        omega)]
    exact h2

theorem idxChildScan_cons {i : Char} {is : Str} {n : Node} {ns : List Node} {c : Char} :
    idxChildScan (i :: is) (n :: ns) c = if c = i then some n else idxChildScan is ns c := rfl

theorem take_pos_cons {c0 : Char} {t : Str} {n : Nat} (hn : 1 ≤ n) :
    (c0 :: t).take n = c0 :: t.take (n - 1) := by
  rcases n with - | n0
  · omega
  · rw [List.take_succ_cons]
    simp

/-- Completeness of the lookup loop along a singleton-registration chain: a
pattern inserted into a blank receiving node is found by the loop on every
key the specification matcher accepts, with exactly the specified bindings,
under the quirk-exclusion side conditions. -/
theorem chain_complete (method : Str) (hv : Handler) :
    ∀ (ifuel : Nat) (pat full key e : Str) (mp0 mp : Nat) (nd : Node) (bs : Params),
      insertLoop method full hv ifuel
          (.mk e [] NodeHandler.empty mp0 [] [] none none) pat mp = .ok nd →
      specMatches pat key = some bs →
      nul ∉ key →
      patOK pat = true →
      cleanWalk pat key = true →
      (pat ≠ [] → key ≠ e) →
      ∀ (ps : Params) (prev : Option Node) (f : Nat), key.length + 2 ≤ f →
        ∃ nh, NodeHandler.set NodeHandler.empty method hv = .ok nh ∧
          lookupLoop f ⟨nd, key, ps, prev, none, none⟩ = ⟨some nh, ps ++ bs, full, .none⟩ := by
  intro ifuel
  induction ifuel with
  | zero =>
    intro pat full key e mp0 mp nd bs hok hm hnul hwf hcw hq ps prev f hf
    rw [insertLoop] at hok
    exact absurd hok (by simp)
  | succ fl ih =>
    intro pat full key e mp0 mp nd bs hok hm hnul hwf hcw hq ps prev f hf
    rw [insertLoop.eq_def] at hok
    rcases pat with - | ⟨c0, ptail⟩
    · -- terminal: the pattern is exhausted, the handler is set on this node
      dsimp only at hok
      rcases hs : NodeHandler.set NodeHandler.empty method hv with er | nh <;> rw [hs] at hok <;>
        dsimp only at hok
      · exact absurd hok (by simp)
      · simp only [Except.ok.injEq] at hok
        obtain ⟨hkey, hbs⟩ := specMatches_nil_inv hm
        subst hkey
        subst hbs
        refine ⟨nh, rfl, ?_⟩
        rcases f with - | f0
        · omega
        rw [lookupLoop]
        rw [@lookupStep_terminal_set ⟨nd, [], ps, prev, none, none⟩ (Or.inl rfl)
          (by rw [← hok]; exact set_isSet hs)]
        rw [← hok]
        simp [Node.handler, Node.pattern]
    · dsimp only [Option.getD] at hok
      by_cases hstar : c0 = '*'
      · -- catch-all: the rest of the pattern becomes the catch-all name
        subst hstar
        rw [if_pos rfl] at hok
        rcases hs : NodeHandler.set NodeHandler.empty method hv with er | nh <;> rw [hs] at hok <;>
          dsimp only at hok
        · exact absurd hok (by simp)
        · simp only [Except.ok.injEq] at hok
          obtain ⟨hkey, hbs⟩ := specMatches_star hm
          subst hbs
          refine ⟨nh, rfl, ?_⟩
          rcases f with - | f0
          · omega
          have hca : nd.catchall = some ⟨ptail, full, nh⟩ := by rw [← hok]; rfl
          have hpn : nd.param = none := by rw [← hok]; rfl
          have hnde : nd.edge = e := by rw [← hok]; rfl
          rw [lookupLoop]
          rw [@lookupStep_catchall_whole_rest ⟨nd, key, ps, prev, none, none⟩ _ hca hpn
            (not_or.mpr ⟨hkey, fun hke => hq (by simp) (hke.trans hnde)⟩)
            (by rw [← hok]; cases key <;> rfl) (set_isSet hs)]
      · rw [if_neg hstar] at hok
        by_cases hbr : c0 = '{'
        · -- parameter token
          subst hbr
          rw [if_pos rfl] at hok
          rw [show idxOfChar '}' ('{' :: ptail) = (idxOfChar '}' ptail).map (· + 1) from by
            rw [idxOfChar, if_neg (by decide)]] at hok
          rcases hj : idxOfChar '}' ptail with - | j
          · rw [hj] at hok
            simp only [Option.map_none'] at hok
            exact absurd hok (by simp)
          · rw [hj] at hok
            simp only [Option.map_some'] at hok
            rw [reconcile_nul] at hok
            dsimp only at hok
            rw [reconcile_nul] at hok
            dsimp only at hok
            rw [show ('{' :: ptail : Str).drop (j + 1 + 1) = ptail.drop (j + 1) from rfl] at hok
            rw [show (('{' :: ptail : Str).take (j + 1)).drop 1 = ptail.take j from rfl] at hok
            rw [if_neg (show ¬(List.take j ptail ≠ [] ∧
              List.take j ptail ≠ List.take j ptail) from fun hcc => hcc.2 rfl)] at hok
            obtain ⟨hcap, bs', hbs', hbs⟩ := specMatches_brace hj hm
            rcases hafter : ptail.drop (j + 1) with - | ⟨a0, arest⟩
            · -- terminal parameter
              rw [hafter] at hok hbs' hcap hbs
              simp only [List.head?_nil] at hok hbs' hcap hbs
              rw [if_pos trivial] at hok
              rcases hs : NodeHandler.set NodeHandler.empty method hv with er | nh <;>
                rw [hs] at hok <;> dsimp only at hok
              · exact absurd hok (by simp)
              · simp only [Except.ok.injEq] at hok
                obtain ⟨hkdrop, hbs0⟩ := specMatches_nil_inv hbs'
                subst hbs0
                refine ⟨nh, rfl, ?_⟩
                rcases f with - | f0
                · omega
                have hkne : key ≠ [] := fun hk => hcap (by rw [hk]; rfl)
                have hnde : nd.edge = e := by rw [← hok]; rfl
                have hpr : nd.param =
                    some (.mk ((e.getLast?).getD nul) nul (ptail.take j) full nh none) := by
                  rw [← hok]; rfl
                have hd : (nd.edge = [] ∧ ((e.getLast?).getD nul) = nul) ∨
                    nd.edge.getLast? = some ((e.getLast?).getD nul) := by
                  rw [hnde]
                  rcases hel : e.getLast? with - | lc
                  · exact Or.inl ⟨List.getLast?_eq_none_iff.mp hel, rfl⟩
                  · exact Or.inr rfl
                rw [lookupLoop]
                rw [@lookupStep_param_here ⟨nd, key, ps, prev, none, none⟩ _ hpr
                  (not_or.mpr ⟨hkne, fun hke => hq (by simp) (hke.trans hnde)⟩)
                  (by rw [← hok]; cases key <;> rfl) hd]
                dsimp only [ParamNode.stop, ParamNode.name, ParamNode.handler,
                  ParamNode.pattern, ParamNode.child]
                rw [← specCapture_none_eq_captureLen_nul hnul]
                rw [if_pos hkdrop, if_pos (set_isSet hs)]
                dsimp only
                rw [hbs]
            · -- parameter with a continuation
              rw [hafter] at hok hbs' hcap hbs
              simp only [List.head?_cons] at hok hbs' hcap hbs
              rw [if_neg (by simp)] at hok
              rcases hrec : insertLoop method full hv fl Node.empty (a0 :: arest)
                  ((mp + 255) % 256) with er | child1 <;> rw [hrec] at hok <;> dsimp only at hok
              · exact absurd hok (by simp)
              · simp only [Except.ok.injEq] at hok
                have hkne : key ≠ [] := fun hk => hcap (by rw [hk]; rfl)
                have hkdropne : key.drop (specCapture (some a0) key) ≠ [] := by
                  intro hnil
                  rw [hnil, specMatches_key_nil] at hbs'
                  exact absurd hbs' (by simp)
                have hwf' := patOK_brace hj hwf
                rw [hafter] at hwf'
                have hcw' := cleanWalk_brace hj hcw
                rw [hafter] at hcw'
                simp only [List.head?_cons] at hcw'
                have hnul' : nul ∉ key.drop (specCapture (some a0) key) :=
                  fun hmem => hnul (List.drop_subset _ _ hmem)
                rcases f with - | f0
                · omega
                obtain ⟨nh, hs, hloop⟩ := ih (a0 :: arest) full
                  (key.drop (specCapture (some a0) key)) [] 0 ((mp + 255) % 256) child1 bs'
                  hrec hbs' hnul' hwf' hcw' (fun _ => hkdropne)
                  (ps ++ [(ptail.take j, key.take (specCapture (some a0) key))]) (some nd) f0
                  (by
                    have h1 := List.length_drop (specCapture (some a0) key) key
                    have h2 := List.length_pos.mpr hkne
                    omega)
                refine ⟨nh, hs, ?_⟩
                have hnde : nd.edge = e := by rw [← hok]; rfl
                have hpr : nd.param =
                    some (.mk ((e.getLast?).getD nul) a0 (ptail.take j) [] NodeHandler.empty
                      (some child1)) := by
                  rw [← hok]; rfl
                have hd : (nd.edge = [] ∧ ((e.getLast?).getD nul) = nul) ∨
                    nd.edge.getLast? = some ((e.getLast?).getD nul) := by
                  rw [hnde]
                  rcases hel : e.getLast? with - | lc
                  · exact Or.inl ⟨List.getLast?_eq_none_iff.mp hel, rfl⟩
                  · exact Or.inr rfl
                rw [lookupLoop]
                rw [@lookupStep_param_here ⟨nd, key, ps, prev, none, none⟩ _ hpr
                  (not_or.mpr ⟨hkne, fun hke => hq (by simp) (hke.trans hnde)⟩)
                  (by rw [← hok]; cases key <;> rfl) hd]
                dsimp only [ParamNode.stop, ParamNode.name, ParamNode.handler,
                  ParamNode.pattern, ParamNode.child]
                rw [← specCapture_eq_captureLen]
                rw [if_neg hkdropne]
                dsimp only
                rw [hbs]
                rw [show ps ++ ((ptail.take j, key.take (specCapture (some a0) key)) :: bs') =
                  (ps ++ [(ptail.take j, key.take (specCapture (some a0) key))]) ++ bs' from by
                    simp]
                exact hloop
        · -- static chunk
          rw [if_neg hbr] at hok
          dsimp only [findEdgeChild] at hok
          rcases hrec : insertLoop method full hv fl
              (Node.mk ((c0 :: ptail).take (staticCut (c0 :: ptail))) [] NodeHandler.empty mp
                [] [] none none) ((c0 :: ptail).drop (staticCut (c0 :: ptail))) mp
              with er | child1 <;> rw [hrec] at hok <;> dsimp only at hok
          · exact absurd hok (by simp)
          · simp only [Except.ok.injEq] at hok
            have hchunk : ∀ x ∈ (c0 :: ptail).take (staticCut (c0 :: ptail)),
                ¬x = '{' ∧ ¬x = '*' := by
              intro x hx
              exact ⟨staticCut_no_brace x hx, (patOK_static hbr hstar hwf).1 x hx⟩
            have hsplit : (c0 :: ptail).take (staticCut (c0 :: ptail)) ++
                (c0 :: ptail).drop (staticCut (c0 :: ptail)) = c0 :: ptail :=
              List.take_append_drop _ _
            have hspec := specMatches_chunk _ ((c0 :: ptail).drop (staticCut (c0 :: ptail)))
              key hchunk
            rw [hsplit, hm] at hspec
            by_cases hpfx : isPfx ((c0 :: ptail).take (staticCut (c0 :: ptail))) key = true
            · rw [if_pos hpfx] at hspec
              have hcut : 1 ≤ staticCut (c0 :: ptail) := staticCut_pos hbr hstar
              have hchlen : ((c0 :: ptail).take (staticCut (c0 :: ptail))).length =
                  staticCut (c0 :: ptail) := by
                rw [List.length_take]
                exact Nat.min_eq_left (@staticCut_le (c0 :: ptail))
              rw [hchlen] at hspec
              obtain ⟨kr', hkeyeq, hpfx'⟩ := @isPfx_cons_inv c0
                (ptail.take (staticCut (c0 :: ptail) - 1)) key
                (by rw [← take_pos_cons hcut]; exact hpfx)
              have hcwp := cleanWalk_static hbr hstar hcw
              have hq' : (c0 :: ptail).drop (staticCut (c0 :: ptail)) ≠ [] →
                  key.drop (staticCut (c0 :: ptail)) ≠
                    (c0 :: ptail).take (staticCut (c0 :: ptail)) := by
                intro hrne
                rcases hcwp.1 with hd | hd
                · exact hd
                · exact absurd hd hrne
              rcases f with - | f0
              · omega
              obtain ⟨nh, hs, hloop⟩ := ih ((c0 :: ptail).drop (staticCut (c0 :: ptail))) full
                (key.drop (staticCut (c0 :: ptail)))
                ((c0 :: ptail).take (staticCut (c0 :: ptail))) mp mp child1 bs hrec hspec.symm
                (fun hmem => hnul (List.drop_subset _ _ hmem))
                (patOK_static hbr hstar hwf).2 hcwp.2 hq' ps (some nd) f0
                (by
                  have h1 := List.length_drop (staticCut (c0 :: ptail)) key
                  have h2 : 1 ≤ key.length := by rw [hkeyeq]; simp
                  omega)
              refine ⟨nh, hs, ?_⟩
              have hnde : nd.edge = e := by rw [← hok]; rfl
              have hedge : child1.edge = (c0 :: ptail).take (staticCut (c0 :: ptail)) :=
                insertLoop_edge hrec
              have hpn : nd.param = none := by rw [← hok]; rfl
              have hcn : nd.catchall = none := by rw [← hok]; rfl
              have hfs : findStatic nd key =
                  some (child1, key.drop (staticCut (c0 :: ptail))) := by
                rw [← hok, hkeyeq, findStatic]
                rw [show ((c0 :: ptail).take (staticCut (c0 :: ptail))).headD nul = c0 from by
                  rw [take_pos_cons hcut]; rfl]
                simp only [Node.indices, Node.children, List.nil_append]
                rw [idxChildScan_cons, if_pos rfl]
                dsimp only
                rw [hedge, ← hkeyeq, if_pos hpfx, hchlen]
              rw [lookupLoop]
              rw [@lookupStep_static_first ⟨nd, key, ps, prev, none, none⟩ _ _
                (not_or.mpr ⟨by rw [hkeyeq]; simp, fun hke => hq (by simp) (hke.trans hnde)⟩)
                hfs]
              simp only [hpn, hcn, Option.isSome_none, Bool.false_eq_true, if_false]
              exact hloop
            · rw [if_neg hpfx] at hspec
              exact absurd hspec (by simp)

/-- The two-pattern router of the C1 counterexample: a parameter pattern
shadowed by a static pattern at the root. -/
def shadowRouter : Router :=
  match buildRouter [(str "GET", str "/{a}", 1), (str "GET", str "/bar", 2)] with
  | some r => r
  | none => Router.new

/-- The single-registration router of the C1 amended theorem's witness. -/
def singletonRouter : Router :=
  match Router.handle Router.new (str "GET") (str "/p/{x}") (some 5) with
  | .ok r => r
  | .error _ => Router.new

/-- C1 counterexample: the claim quantifies over every successfully
registered triple, but registered patterns shadow one another.  With
`/{a} -> 1` and `/bar -> 2` both registered through `Router.Handle`, the
request path `/bar` matches the registered pattern `/{a}` (with binding
`a = "bar"`), yet the router returns the `/bar` table with handler 2, the
literal `/bar` pattern and no bindings — never handler 1 with `/{a}`. -/
theorem C1_counterexample :
    buildRouter [(str "GET", str "/{a}", 1), (str "GET", str "/bar", 2)] = some shadowRouter ∧
    specMatches (str "/{a}") (str "/bar") = some [(str "a", str "bar")] ∧
    shadowRouter.handlerFor [] (str "/bar") = .found (getOnly 2) [] (str "/bar") ∧
    ∀ ps : Params,
      shadowRouter.handlerFor [] (str "/bar") ≠ .found (getOnly 1) ps (str "/{a}") := by
  refine ⟨rfl, rfl, rfl, ?_⟩
  intro ps h
  rw [show shadowRouter.handlerFor [] (str "/bar") =
    .found (getOnly 2) [] (str "/bar") from rfl] at h
  simp only [RouteOutcome.found.injEq] at h
  obtain ⟨h1, -, -⟩ := h
  exact absurd (congrArg NodeHandler.hm h1) (by decide)

/-- C1 (amended): singleton-registration completeness.  For a pattern
registered alone through `Router.Handle` (comma-free method), every key the
specification matcher accepts — provided the key contains no NUL byte, the
pattern is within the spec's token grammar, and the walk never leaves a key
remainder equal to a pending static chunk — is routed by the trie lookup to
exactly the registered method table, the literal pattern and the specified
left-to-right bindings, and that table serves the registered handler for
the method; for a path-shaped pattern the full `Router.handler` boundary
returns the same triple. -/
theorem C1_amended (method pattern key : Str) (hv : Handler) (r1 : Router) (bs : Params)
    (hreg : Router.handle Router.new method pattern (some hv) = .ok r1)
    (hm : specMatches pattern key = some bs)
    (hnul : nul ∉ key)
    (hwf : patOK pattern = true)
    (hcw : cleanWalk pattern key = true)
    (hcomma : ',' ∉ method) :
    ∃ nh, r1.root.lookup key [] = ⟨some nh, bs, pattern, .none⟩ ∧
      nh.serve method = .handled hv ∧
      (pattern.head? = some '/' →
        ∀ host, r1.handlerFor host key = .found nh bs pattern) := by
  rw [handle_eq] at hreg
  by_cases hpe : pattern = []
  · rw [if_pos hpe] at hreg
    exact absurd hreg (by simp)
  rw [if_neg hpe] at hreg
  by_cases hme : method = []
  · rw [if_pos hme] at hreg
    exact absurd hreg (by simp)
  rw [if_neg hme] at hreg
  dsimp only at hreg
  rcases hins : Router.new.root.insert method pattern hv with er | root1 <;>
    rw [hins] at hreg <;> dsimp only at hreg
  · exact absurd hreg (by simp)
  simp only [Except.ok.injEq] at hreg
  rw [Node.insert] at hins
  have hq : pattern ≠ [] → key ≠ ([] : Str) := by
    intro hpne hke
    rcases pattern with - | ⟨c, pr⟩
    · exact hpne rfl
    · rw [hke, specMatches_key_nil] at hm
      exact absurd hm (by simp)
  obtain ⟨nh, hs, hloop⟩ := chain_complete method hv (pattern.length + 1) pattern pattern key
    [] 0 (countParams pattern 0) root1 bs hins hm hnul hwf hcw hq []
    none ((nodeSize root1 + 2) * (nodeSize root1 + key.length + 2))
    (by
      calc key.length + 2 ≤ nodeSize root1 + key.length + 2 := by omega
        _ = 1 * (nodeSize root1 + key.length + 2) := by omega
        _ ≤ (nodeSize root1 + 2) * (nodeSize root1 + key.length + 2) :=
            Nat.mul_le_mul_right _ (by omega))
  have hroot : r1.root = root1 := by rw [← hreg]
  have hlook : r1.root.lookup key [] = ⟨some nh, bs, pattern, .none⟩ := by
    rw [hroot]
    rw [show root1.lookup key [] =
      lookupLoop ((nodeSize root1 + 2) * (nodeSize root1 + key.length + 2))
        ⟨root1, key, [], none, none, none⟩ from rfl]
    rw [hloop]
    rw [List.nil_append]
  refine ⟨nh, hlook, empty_set_serve hs hcomma, ?_⟩
  intro hhead host
  have hhosts : r1.hosts = false := by
    rw [← hreg]
    dsimp only
    rw [if_neg (not_not_intro hhead)]
    rfl
  rw [Router.handlerFor, hhosts]
  simp only [Bool.false_eq_true, if_false]
  rw [hlook]
  rfl

theorem C1_amended_witness :
    Router.handle Router.new (str "GET") (str "/p/{x}") (some 5) = .ok singletonRouter ∧
    specMatches (str "/p/{x}") (str "/p/ab") = some [(str "x", str "ab")] ∧
    nul ∉ str "/p/ab" ∧ patOK (str "/p/{x}") = true ∧
    cleanWalk (str "/p/{x}") (str "/p/ab") = true ∧ ',' ∉ str "GET" ∧
    ∃ nh, singletonRouter.root.lookup (str "/p/ab") [] =
        ⟨some nh, [(str "x", str "ab")], str "/p/{x}", .none⟩ ∧
      nh.serve (str "GET") = .handled 5 ∧
      ((str "/p/{x}").head? = some '/' →
        ∀ host, singletonRouter.handlerFor host (str "/p/ab") =
          .found nh [(str "x", str "ab")] (str "/p/{x}")) :=
  ⟨rfl, rfl, by decide, rfl, rfl, by decide,
   C1_amended (str "GET") (str "/p/{x}") (str "/p/ab") 5 singletonRouter
     [(str "x", str "ab")] rfl rfl (by decide) rfl rfl (by decide)⟩

end Route
